import Mathlib

/-! Verification of the Robin Hood open-addressing hash table implemented in
src/robinhood/robinhood.go of the fastmap repository.

The table state (slot array, occupied count, capacity mask) is embedded
shallowly: slices become lists, the uint64 hash becomes an arbitrary function
hash : K -> Nat of which only hash k &&& mask is ever used, and the unbounded
probing loops of Put, Get and Remove become fuel-indexed recursions (the fuel
equals the slot-array length, which is enough for every loop that terminates in
the source; fuel exhaustion yields none).  Probe distances are uint8 in the
source (the distance field of entry and the running dist counters), and Go
unsigned arithmetic wraps, so every increment of a distance in the primary
definitions below is taken mod 2^8 = 256 explicitly; the decrement in the
backward-shift loop is guarded by distance == 0 and therefore never wraps.
Alongside the primary definitions, N-suffixed variants (putLoopN, getN, ...)
with unbounded counters serve as proof devices: bridge lemmas (putLoop_eq and
company) prove that on tables of at most 128 slots every distance the code
computes stays below 255, so the two renderings coincide there, and the
structural theory is developed once over the N variants.  The float comparison
float64(size+1)/float64(len) > 0.75 in Put is exact for the sizes involved
(len is a power of two, both operands are small integers represented exactly
in float64), so it is embedded as the equivalent integer comparison
3*len < 4*(size+1). -/

set_option linter.unusedSectionVars false

namespace FastMap

/-- Entry mirrors the slot struct (called entry) of robinhood.go: stored key,
stored value, probe distance and the occupancy flag. -/
structure Entry (K V : Type) where
  key : K
  value : V
  distance : Nat
  occupied : Bool
deriving DecidableEq

/-- Zero value of a slot, as produced by make([]entry, n) in Go: zero key and
value, distance 0, not occupied. -/
instance entryInhabited (K V : Type) [Inhabited K] [Inhabited V] : Inhabited (Entry K V) :=
  ⟨⟨default, default, 0, false⟩⟩

/-- RobinHoodMap mirrors the struct of the same name: the slot slice, the
occupied count and the capacity mask (length - 1).  The loadFactor field of the
source is the constant 0.75 and is inlined into needsResize; the maphash.Hash
field is modelled by the external hash parameter of the operations. -/
structure RobinHoodMap (K V : Type) where
  entries : List (Entry K V)
  size : Nat
  mask : Nat
deriving DecidableEq

variable {K V : Type} [DecidableEq K] [Inhabited K] [Inhabited V]

/-- Reading entries[i]; every read in the source happens at an index that was
masked, hence in bounds, so the default is never meaningful there. -/
def slotAt (es : List (Entry K V)) (i : Nat) : Entry K V :=
  es.getD i default

/-- NewRobinHoodMap: 8 zero slots, size 0, mask 7. -/
def NewRobinHoodMap : RobinHoodMap K V :=
  ⟨List.replicate 8 default, 0, 7⟩

/-- Load factor check of Put: float64(size+1)/float64(len(entries)) > 0.75,
embedded as the exact integer comparison. -/
def needsResize (m : RobinHoodMap K V) : Bool :=
  decide (3 * m.entries.length < 4 * (m.size + 1))

/-- Probing loop of Put.  Arguments after the fuel: current slots, the carried
key and value, the running dist counter, the current index, the mask.  Returns
the updated slots and whether a new entry was created (true) as opposed to an
existing key being overwritten (false); the caller increments size accordingly,
mirroring the m.size++ of the source. -/
def putLoop : Nat → List (Entry K V) → K → V → Nat → Nat → Nat →
    Option (List (Entry K V) × Bool)
  | 0, _, _, _, _, _, _ => none
  | fuel + 1, es, key, value, dist, index, mask =>
    let e := slotAt es index
    if e.occupied = false then
      some (es.set index ⟨key, value, dist, true⟩, true)
    else if e.key = key then
      some (es.set index ⟨e.key, value, e.distance, e.occupied⟩, false)
    else if e.distance < dist then
      putLoop fuel (es.set index ⟨key, value, dist, true⟩) e.key e.value
        ((e.distance + 1) % 256) ((index + 1) &&& mask) mask
    else
      putLoop fuel es key value ((dist + 1) % 256) ((index + 1) &&& mask) mask

/-- Put without its leading load-factor check: the probing loop started at
hash &&& mask, then m.size++ exactly when a new entry was created. -/
def putCore (hash : K → Nat) (m : RobinHoodMap K V) (key : K) (value : V) :
    Option (RobinHoodMap K V) :=
  (putLoop m.entries.length m.entries key value 0 (hash key &&& m.mask) m.mask).map
    fun r => ⟨r.1, if r.2 then m.size + 1 else m.size, m.mask⟩

/-- Loop of resize: every occupied entry of the old slice is re-inserted, in
slice order, through m.Put.  Each such nested Put performs the load-factor
check again; in the source a firing check would recurse into a second resize,
which provably never happens while re-inserting at most len entries into a
fresh table of length 2*len (theorem reinsert_no_retrigger below states the
guard 4*(size+1) <= 3*len that every step here satisfies), so the model
truncates that unreachable branch to none. -/
def reinsert (hash : K → Nat) : List (Entry K V) → RobinHoodMap K V →
    Option (RobinHoodMap K V)
  | [], acc => some acc
  | e :: rest, acc =>
    (if e.occupied then
        (if needsResize acc then none else putCore hash acc e.key e.value)
      else some acc).bind
      fun acc1 => reinsert hash rest acc1

/-- Resize: double-length fresh slot slice, mask recomputed, size reset, then
re-insertion of every previously occupied entry in slice order. -/
def resize (hash : K → Nat) (m : RobinHoodMap K V) : Option (RobinHoodMap K V) :=
  reinsert hash m.entries
    ⟨List.replicate (m.entries.length * 2) default, 0, m.entries.length * 2 - 1⟩

/-- Put: the load-factor check with its resize, then the probing loop. -/
def put (hash : K → Nat) (m : RobinHoodMap K V) (key : K) (value : V) :
    Option (RobinHoodMap K V) :=
  (if needsResize m then resize hash m else some m).bind fun m1 =>
    putCore hash m1 key value

/-- Probing loop of Get: stop with not-found at an unoccupied slot or when the
running dist exceeds the resident probe distance, stop with the value on a key
match, otherwise advance. -/
def getLoop : Nat → List (Entry K V) → K → Nat → Nat → Nat → Option (Option V)
  | 0, _, _, _, _, _ => none
  | fuel + 1, es, key, dist, index, mask =>
    let e := slotAt es index
    if e.occupied = false ∨ e.distance < dist then some none
    else if e.key = key then some (some e.value)
    else getLoop fuel es key ((dist + 1) % 256) ((index + 1) &&& mask) mask

/-- Get: probe from hash &&& mask.  The inner Option is the result ((zero
value, false) of the source is none, (value, true) is some value); the outer
Option is the fuel guard. -/
def get (hash : K → Nat) (m : RobinHoodMap K V) (key : K) : Option (Option V) :=
  getLoop m.entries.length m.entries key 0 (hash key &&& m.mask) m.mask

/-- Backward-shift loop of Remove: while the next slot is occupied and has a
positive probe distance, move it one slot back with its distance decremented;
then mark the current slot unoccupied (its stale key, value and distance are
kept, exactly as the source only assigns entry.occupied = false). -/
def shiftLoop : Nat → List (Entry K V) → Nat → Nat → Nat → Option (List (Entry K V))
  | 0, _, _, _, _ => none
  | fuel + 1, es, index, nextIndex, mask =>
    let ne := slotAt es nextIndex
    if ne.occupied = false ∨ ne.distance = 0 then
      some (es.set index
        ⟨(slotAt es index).key, (slotAt es index).value, (slotAt es index).distance, false⟩)
    else
      shiftLoop fuel (es.set index ⟨ne.key, ne.value, ne.distance - 1, ne.occupied⟩) nextIndex
        ((nextIndex + 1) &&& mask) mask

/-- Search loop of Remove: identical stopping rule to Get; on a match the
backward shift runs, and the pair records whether a removal happened. -/
def removeLoop : Nat → List (Entry K V) → K → Nat → Nat → Nat →
    Option (Bool × List (Entry K V))
  | 0, _, _, _, _, _ => none
  | fuel + 1, es, key, dist, index, mask =>
    let e := slotAt es index
    if e.occupied = false ∨ e.distance < dist then some (false, es)
    else if e.key = key then
      (shiftLoop es.length es index ((index + 1) &&& mask) mask).map fun es2 => (true, es2)
    else removeLoop fuel es key ((dist + 1) % 256) ((index + 1) &&& mask) mask

/-- Remove: probe from hash &&& mask; m.size-- exactly when the key was found,
as in the source (the decrement precedes the shift there; only its effect on
the final state is observable). -/
def remove (hash : K → Nat) (m : RobinHoodMap K V) (key : K) :
    Option (Bool × RobinHoodMap K V) :=
  (removeLoop m.entries.length m.entries key 0 (hash key &&& m.mask) m.mask).map fun r =>
    (r.1, ⟨r.2, if r.1 then m.size - 1 else m.size, m.mask⟩)


/-! Proof devices: the same loops with unbounded (exact) distance counters.
Nothing below is a rendering of the source on its own; the bridge lemmas
relate each N variant to its primary counterpart on tables of at most 128
slots, where no distance the code computes ever reaches 255 and the uint8
wraps are the identity. -/

/-- putLoop with exact (unbounded) distance counters. -/
def putLoopN : Nat → List (Entry K V) → K → V → Nat → Nat → Nat →
    Option (List (Entry K V) × Bool)
  | 0, _, _, _, _, _, _ => none
  | fuel + 1, es, key, value, dist, index, mask =>
    let e := slotAt es index
    if e.occupied = false then
      some (es.set index ⟨key, value, dist, true⟩, true)
    else if e.key = key then
      some (es.set index ⟨e.key, value, e.distance, e.occupied⟩, false)
    else if e.distance < dist then
      putLoopN fuel (es.set index ⟨key, value, dist, true⟩) e.key e.value (e.distance + 1)
        ((index + 1) &&& mask) mask
    else
      putLoopN fuel es key value (dist + 1) ((index + 1) &&& mask) mask

/-- putCore over putLoopN. -/
def putCoreN (hash : K → Nat) (m : RobinHoodMap K V) (key : K) (value : V) :
    Option (RobinHoodMap K V) :=
  (putLoopN m.entries.length m.entries key value 0 (hash key &&& m.mask) m.mask).map
    fun r => ⟨r.1, if r.2 then m.size + 1 else m.size, m.mask⟩

/-- reinsert over putCoreN. -/
def reinsertN (hash : K → Nat) : List (Entry K V) → RobinHoodMap K V →
    Option (RobinHoodMap K V)
  | [], acc => some acc
  | e :: rest, acc =>
    (if e.occupied then
        (if needsResize acc then none else putCoreN hash acc e.key e.value)
      else some acc).bind
      fun acc1 => reinsertN hash rest acc1

/-- resize over reinsertN. -/
def resizeN (hash : K → Nat) (m : RobinHoodMap K V) : Option (RobinHoodMap K V) :=
  reinsertN hash m.entries
    ⟨List.replicate (m.entries.length * 2) default, 0, m.entries.length * 2 - 1⟩

/-- put over the N variants. -/
def putN (hash : K → Nat) (m : RobinHoodMap K V) (key : K) (value : V) :
    Option (RobinHoodMap K V) :=
  (if needsResize m then resizeN hash m else some m).bind fun m1 =>
    putCoreN hash m1 key value

/-- getLoop with an exact distance counter. -/
def getLoopN : Nat → List (Entry K V) → K → Nat → Nat → Nat → Option (Option V)
  | 0, _, _, _, _, _ => none
  | fuel + 1, es, key, dist, index, mask =>
    let e := slotAt es index
    if e.occupied = false ∨ e.distance < dist then some none
    else if e.key = key then some (some e.value)
    else getLoopN fuel es key (dist + 1) ((index + 1) &&& mask) mask

/-- get over getLoopN. -/
def getN (hash : K → Nat) (m : RobinHoodMap K V) (key : K) : Option (Option V) :=
  getLoopN m.entries.length m.entries key 0 (hash key &&& m.mask) m.mask

/-- removeLoop with an exact distance counter; the backward shift has no
distance increments, so shiftLoop is shared with the primary rendering. -/
def removeLoopN : Nat → List (Entry K V) → K → Nat → Nat → Nat →
    Option (Bool × List (Entry K V))
  | 0, _, _, _, _, _ => none
  | fuel + 1, es, key, dist, index, mask =>
    let e := slotAt es index
    if e.occupied = false ∨ e.distance < dist then some (false, es)
    else if e.key = key then
      (shiftLoop es.length es index ((index + 1) &&& mask) mask).map fun es2 => (true, es2)
    else removeLoopN fuel es key (dist + 1) ((index + 1) &&& mask) mask

/-- remove over removeLoopN. -/
def removeN (hash : K → Nat) (m : RobinHoodMap K V) (key : K) :
    Option (Bool × RobinHoodMap K V) :=
  (removeLoopN m.entries.length m.entries key 0 (hash key &&& m.mask) m.mask).map fun r =>
    (r.1, ⟨r.2, if r.1 then m.size - 1 else m.size, m.mask⟩)

/-- Size returns the size field. -/
def Size (m : RobinHoodMap K V) : Nat := m.size

/-- Clear reinitializes to 8 zero slots, size 0, mask 7. -/
def clear (_m : RobinHoodMap K V) : RobinHoodMap K V :=
  ⟨List.replicate 8 default, 0, 7⟩

/-- Get in state-passing form: the source method assigns to none of entries,
size and mask (its hasher is written and then reset by the deferred Reset), so
the receiver comes back unchanged. -/
def getS (hash : K → Nat) (m : RobinHoodMap K V) (key : K) :
    Option (Option V) × RobinHoodMap K V :=
  (get hash m key, m)

/-- Size in state-passing form. -/
def SizeS (m : RobinHoodMap K V) : Nat × RobinHoodMap K V :=
  (Size m, m)

/-- Sequencing of Put calls, for round-trip statements. -/
def puts (hash : K → Nat) (m : RobinHoodMap K V) (l : List (K × V)) :
    Option (RobinHoodMap K V) :=
  l.foldlM (fun acc kv => put hash acc kv.1 kv.2) m

/-- Total wrapper of puts, defaulting to the start state on fuel exhaustion
(never exercised from well-formed states). -/
def putsD (hash : K → Nat) (m : RobinHoodMap K V) (l : List (K × V)) : RobinHoodMap K V :=
  (puts hash m l).getD m

/-- Total wrapper of put. -/
def putD (hash : K → Nat) (m : RobinHoodMap K V) (key : K) (value : V) : RobinHoodMap K V :=
  (put hash m key value).getD m

/-- Total wrapper of remove. -/
def removeD (hash : K → Nat) (m : RobinHoodMap K V) (key : K) : Bool × RobinHoodMap K V :=
  (remove hash m key).getD (false, m)

/-- Fixture hash for concrete checks: the identity on Nat. -/
def wHash : Nat → Nat := fun n => n

/-- Fixture state: keys 1 and 2 put into a fresh table. -/
def wM2 : RobinHoodMap Nat Nat :=
  putsD wHash NewRobinHoodMap [(1, 10), (2, 20)]

/-- Fixture state: six keys put into a fresh 8-slot table (size 6, so the next
Put trips the load-factor check); key 9 collides with key 1 and sits
displaced at slot 2. -/
def wM6 : RobinHoodMap Nat Nat :=
  putsD wHash NewRobinHoodMap
    [(0, 100), (1, 101), (2, 102), (3, 103), (4, 104), (9, 109)]

/-- Fixture hash forcing a single collision chain: every key maps to bucket 0.
Used to exhibit the uint8 wrap at true displacements of 256 and beyond. -/
def cHash : Nat → Nat := fun _ => 0

/-- Slot array of the const-hash chain fixture: keys 0..n-1 sit at slots
0..n-1 of an L-slot table, each storing its displacement i through the uint8
field, so mod 256. -/
def chainEntries (n L : Nat) : List (Entry Nat Nat) :=
  (List.range L).map fun i => if i < n then ⟨i, i, i % 256, true⟩ else default

/-- Table state of the chain fixture. -/
def chainState (n L : Nat) : RobinHoodMap Nat Nat :=
  ⟨chainEntries n L, n, L - 1⟩

/-- Capacity after n puts into a fresh table: 8, doubled whenever a put trips
the load-factor check. -/
def Lcap : Nat → Nat
  | 0 => 8
  | n + 1 => if 3 * Lcap n < 4 * (n + 1) then 2 * Lcap n else Lcap n

/-- The first n chain insertions: key i with value i. -/
def chainPairs (n : Nat) : List (Nat × Nat) :=
  (List.range n).map fun i => (i, i)

/-- The chain fixture at 300 keys: a 512-slot table, entries at true
displacements 0..299, the stored uint8 distance wrapped at slot 256 and
beyond. -/
def cState : RobinHoodMap Nat Nat := chainState 300 512

/-- cState after Remove 0: the backward shift stops before slot 256, whose
stored distance wrapped to 0; slot 255 is freed and keys 256..299 stay put,
stranded behind the hole. -/
def strandState : RobinHoodMap Nat Nat := (removeD cHash cState 0).2

/-- strandState after re-putting key 256: the probe walks from bucket 0 to
the freed slot 255 and fills it while the stranded copy of key 256 still sits
at slot 256. -/
def dupState : RobinHoodMap Nat Nat := putD cHash strandState 256 999

/-- States reachable from a fresh table by the exported mutating operations
(Get and Size return their receiver unchanged, see getS and SizeS, so they add
no states). -/
inductive Reachable (hash : K → Nat) : RobinHoodMap K V → Prop where
  | new : Reachable hash NewRobinHoodMap
  | putStep {m m' : RobinHoodMap K V} {key : K} {value : V} :
      Reachable hash m → put hash m key value = some m' → Reachable hash m'
  | removeStep {m m' : RobinHoodMap K V} {key : K} {b : Bool} :
      Reachable hash m → remove hash m key = some (b, m') → Reachable hash m'
  | clearStep {m : RobinHoodMap K V} : Reachable hash m → Reachable hash (clear m)

/-- Home bucket of a key in a table of length L: hash k &&& (L-1), expressed
through the modulo it equals for the power-of-two lengths in use. -/
def homeOf (hash : K → Nat) (L : Nat) (key : K) : Nat := hash key % L

/-- Occupied (key, value) pairs held in the slots, in slot order. -/
def pairsOf (es : List (Entry K V)) : List (K × V) :=
  (es.filter fun e => e.occupied).map fun e => (e.key, e.value)

/-- Pairs contributed by a single slot. -/
def entryPairs (e : Entry K V) : List (K × V) :=
  if e.occupied then [(e.key, e.value)] else []

/-- Number of occupied slots. -/
def countOccupied (es : List (Entry K V)) : Nat :=
  es.countP fun e => e.occupied

/-- Index one step back in the circular slot array. -/
def prevIdx (L i : Nat) : Nat := (i + L - 1) % L

/-- Every occupied slot stores exactly its displacement from its home bucket:
entries[i].distance = (i - home) mod L, written with Nat arithmetic. -/
def distOk (hash : K → Nat) (es : List (Entry K V)) : Prop :=
  ∀ i, i < es.length → (slotAt es i).occupied = true →
    (slotAt es i).distance =
      (i + es.length - homeOf hash es.length (slotAt es i).key) % es.length

/-- Local Robin Hood property: an occupied slot with positive probe distance
has an occupied predecessor whose probe distance is at least one less. -/
def rhOk (es : List (Entry K V)) : Prop :=
  ∀ i, i < es.length → (slotAt es i).occupied = true → 0 < (slotAt es i).distance →
    (slotAt es (prevIdx es.length i)).occupied = true ∧
      (slotAt es i).distance ≤ (slotAt es (prevIdx es.length i)).distance + 1

/-- No key occupies two distinct slots. -/
def uniqOk (es : List (Entry K V)) : Prop :=
  ∀ i j, i < es.length → j < es.length → (slotAt es i).occupied = true →
    (slotAt es j).occupied = true → (slotAt es i).key = (slotAt es j).key → i = j

/-- Well-formedness of a table state: power-of-two length at least 8, the mask
is length - 1, size counts the occupied slots, the load factor is at most 0.75,
probe distances are exact, the local Robin Hood property holds, keys are
unique. -/
structure WF (hash : K → Nat) (m : RobinHoodMap K V) : Prop where
  pow : ∃ t, 3 ≤ t ∧ m.entries.length = 2 ^ t
  maskEq : m.mask = m.entries.length - 1
  sizeEq : m.size = (pairsOf m.entries).length
  load : 4 * m.size ≤ 3 * m.entries.length
  dist : distOk hash m.entries
  rh : rhOk m.entries
  uniq : uniqOk m.entries

/-- Key key is stored at slot i. -/
def presentAt (m : RobinHoodMap K V) (i : Nat) (key : K) : Prop :=
  i < m.entries.length ∧ (slotAt m.entries i).occupied = true ∧
    (slotAt m.entries i).key = key

/-- Key key is stored in no slot. -/
def absentKey (m : RobinHoodMap K V) (key : K) : Prop :=
  ∀ i, i < m.entries.length → (slotAt m.entries i).occupied = true →
    (slotAt m.entries i).key ≠ key

instance decPresentAt (m : RobinHoodMap K V) (i : Nat) (key : K) :
    Decidable (presentAt m i key) := by
  unfold presentAt
  infer_instance

instance decAbsentKey (m : RobinHoodMap K V) (key : K) :
    Decidable (absentKey m key) := by
  unfold absentKey
  infer_instance

/-- Slot q with its occupied flag cleared and all other fields kept, exactly
what the final write of the backward-shift loop of Remove produces. -/
def clearSlot (es : List (Entry K V)) (q : Nat) : List (Entry K V) :=
  es.set q ⟨(slotAt es q).key, (slotAt es q).value, (slotAt es q).distance, false⟩

/-- Invariant of the Put probing loop, at the iteration whose carried candidate
is (ck, cv) with running distance cd, s steps after the loop started at bucket
h0: the structural invariants hold for the current slots, the carried key is in
no slot, the current index (h0 + s) mod len agrees with the carried home and
distance, cd never exceeds s, and the slot behind the current index is occupied
with distance at least cd - 1 (so placing or swapping the candidate in keeps
the local Robin Hood property). -/
structure PutInv (hash : K → Nat) (h0 : Nat) (es : List (Entry K V)) (ck : K)
    (cd s : Nat) : Prop where
  dOk : distOk hash es
  rOk : rhOk es
  uOk : uniqOk es
  carried : ∀ i, i < es.length → (slotAt es i).occupied = true → (slotAt es i).key ≠ ck
  posCong : (homeOf hash es.length ck + cd) % es.length = (h0 + s) % es.length
  cdLe : cd ≤ s
  cr : 0 < cd → (slotAt es (prevIdx es.length ((h0 + s) % es.length))).occupied = true ∧
      cd ≤ (slotAt es (prevIdx es.length ((h0 + s) % es.length))).distance + 1

/-! Toolkit: masked arithmetic on the circular index space, slot reads after
writes, and the multiset of stored pairs. -/

theorem land_mask {L mask : Nat} (hpow : ∃ t, 3 ≤ t ∧ L = 2 ^ t)
    (hmask : mask = L - 1) (x : Nat) : x &&& mask = x % L := by
  obtain ⟨t, _, rfl⟩ := hpow
  subst hmask
  exact Nat.and_pow_two_sub_one_eq_mod x t

theorem mod_sub_step {L x s : Nat} (hs : s ≤ L) :
    (x % L + L - s) % L = (x + L - s) % L := by
  have h1 : x % L + L - s = x % L + (L - s) := by omega
  have h2 : x + L - s = x + (L - s) := by omega
  rw [h1, h2, Nat.mod_add_mod]

theorem offset_of_pos {L b d : Nat} (hb : b < L) (hd : d < L) :
    ((b + d) % L + L - b) % L = d := by
  rw [mod_sub_step (le_of_lt hb)]
  have h : b + d + L - b = d + L := by omega
  rw [h, Nat.add_mod_right, Nat.mod_eq_of_lt hd]

theorem pos_of_dist {L b r : Nat} (hb : b < L) (hr : r < L) :
    (b + (r + L - b) % L) % L = r := by
  rw [Nat.add_mod_mod]
  have h : b + (r + L - b) = r + L := by omega
  rw [h, Nat.add_mod_right, Nat.mod_eq_of_lt hr]

theorem offset_inj {L b t d : Nat} (ht : t < L) (hd : d < L)
    (h : (b + t) % L = (b + d) % L) : t = d := by
  have hL : 0 < L := by omega
  have h1 := offset_of_pos (Nat.mod_lt b hL) ht
  have h2 := offset_of_pos (Nat.mod_lt b hL) hd
  rw [Nat.mod_add_mod] at h1 h2
  rw [h] at h1
  exact h1.symm.trans h2

theorem mod_step (L x : Nat) : (x % L + 1) % L = (x + 1) % L :=
  Nat.mod_add_mod x L 1

theorem prev_offset {L b t : Nat} (hL : 0 < L) :
    prevIdx L ((b + (t + 1)) % L) = (b + t) % L := by
  unfold prevIdx
  rw [mod_sub_step (by omega : 1 ≤ L)]
  have h : b + (t + 1) + L - 1 = b + t + L := by omega
  rw [h, Nat.add_mod_right]

theorem path_pos {L b d t i : Nat} (hb : b < L) (hd : d < L) (ht : t ≤ d)
    (hi : (b + d) % L = i) : (i + L - (d - t)) % L = (b + t) % L := by
  subst hi
  rw [mod_sub_step (by omega : d - t ≤ L)]
  have h : b + d + L - (d - t) = b + t + L := by omega
  rw [h, Nat.add_mod_right]

theorem slotAt_eq_getElem {es : List (Entry K V)} {i : Nat} (h : i < es.length) :
    slotAt es i = es[i] := by
  unfold slotAt
  rw [List.getD_eq_getElem?_getD, List.getElem?_eq_getElem h]
  rfl

theorem slotAt_set_self {es : List (Entry K V)} {i : Nat} (h : i < es.length)
    (e : Entry K V) : slotAt (es.set i e) i = e := by
  unfold slotAt
  rw [List.getD_eq_getElem?_getD, List.getElem?_set_self h]
  rfl

theorem slotAt_set_ne {es : List (Entry K V)} {i j : Nat} (h : i ≠ j)
    (e : Entry K V) : slotAt (es.set i e) j = slotAt es j := by
  unfold slotAt
  rw [List.getD_eq_getElem?_getD, List.getD_eq_getElem?_getD, List.getElem?_set_ne h]

theorem slotAt_replicate {n i : Nat} :
    slotAt (List.replicate n (default : Entry K V)) i = default := by
  unfold slotAt
  rw [List.getD_eq_getElem?_getD, List.getElem?_replicate]
  split <;> rfl

theorem pairsOf_nil : pairsOf ([] : List (Entry K V)) = [] := rfl

theorem pairsOf_cons (e : Entry K V) (es : List (Entry K V)) :
    pairsOf (e :: es) = entryPairs e ++ pairsOf es := by
  by_cases h : e.occupied = true <;>
    simp [pairsOf, entryPairs, List.filter_cons, h]

theorem perm_middle_swap (A E P : List (K × V)) :
    (A ++ (E ++ P)).Perm (E ++ (A ++ P)) := by
  rw [← List.append_assoc, ← List.append_assoc]
  exact List.perm_append_comm.append_right P

theorem pairsOf_set {es : List (Entry K V)} : ∀ {i : Nat}, i < es.length →
    ∀ e : Entry K V,
      (pairsOf (es.set i e) ++ entryPairs (slotAt es i)).Perm
        (entryPairs e ++ pairsOf es) := by
  induction es with
  | nil => intro i h; simp at h
  | cons a es ih =>
    intro i h e
    match i with
    | 0 =>
      simp only [List.set_cons_zero, pairsOf_cons]
      have h0 : slotAt (a :: es) 0 = a := rfl
      rw [h0, List.append_assoc]
      exact (@List.perm_append_comm _ (pairsOf es) _).append_left (entryPairs e)
    | i + 1 =>
      simp only [List.set_cons_succ, pairsOf_cons]
      have hs : slotAt (a :: es) (i + 1) = slotAt es i := rfl
      rw [hs, List.append_assoc]
      have hlen : i < es.length := by simpa using h
      exact ((ih hlen e).append_left (entryPairs a)).trans
        (perm_middle_swap (entryPairs a) (entryPairs e) (pairsOf es))

theorem mem_pairsOf {es : List (Entry K V)} {k : K} {v : V} :
    (k, v) ∈ pairsOf es ↔ ∃ i, i < es.length ∧ (slotAt es i).occupied = true ∧
      (slotAt es i).key = k ∧ (slotAt es i).value = v := by
  constructor
  · intro h
    obtain ⟨e, he, hkv⟩ := List.mem_map.1 h
    obtain ⟨hmem, hocc⟩ := List.mem_filter.1 he
    obtain ⟨i, hi, hei⟩ := List.mem_iff_getElem.1 hmem
    refine ⟨i, hi, ?_⟩
    rw [slotAt_eq_getElem hi, hei]
    obtain ⟨h1, h2⟩ := Prod.mk.injEq .. ▸ hkv
    exact ⟨hocc, h1, h2⟩
  · rintro ⟨i, hi, hocc, hk, hv⟩
    refine List.mem_map.2 ⟨slotAt es i, List.mem_filter.2 ⟨?_, hocc⟩, by rw [hk, hv]⟩
    rw [slotAt_eq_getElem hi]
    exact List.getElem_mem hi

theorem countOccupied_eq_pairs_length (es : List (Entry K V)) :
    countOccupied es = (pairsOf es).length := by
  unfold countOccupied pairsOf
  rw [List.countP_eq_length_filter, List.length_map]

/-! Consequences of well-formedness. -/

theorem WF.lenPos {hash : K → Nat} {m : RobinHoodMap K V} (h : WF hash m) :
    0 < m.entries.length := by
  obtain ⟨t, _, hL⟩ := h.pow
  rw [hL]
  positivity

theorem WF.len8 {hash : K → Nat} {m : RobinHoodMap K V} (h : WF hash m) :
    8 ≤ m.entries.length := by
  obtain ⟨t, ht, hL⟩ := h.pow
  rw [hL]
  calc (8 : Nat) = 2 ^ 3 := by norm_num
  _ ≤ 2 ^ t := Nat.pow_le_pow_right (by norm_num) ht

theorem WF.maskMod {hash : K → Nat} {m : RobinHoodMap K V} (h : WF hash m) (x : Nat) :
    x &&& m.mask = x % m.entries.length :=
  land_mask h.pow h.maskEq x

theorem homeOf_lt {hash : K → Nat} {L : Nat} (hL : 0 < L) (k : K) :
    homeOf hash L k < L :=
  Nat.mod_lt _ hL

theorem dist_lt_len {hash : K → Nat} {es : List (Entry K V)} (hd : distOk hash es)
    {i : Nat} (hi : i < es.length) (hocc : (slotAt es i).occupied = true) :
    (slotAt es i).distance < es.length := by
  rw [hd i hi hocc]
  exact Nat.mod_lt _ (by omega)

theorem home_add_dist {hash : K → Nat} {es : List (Entry K V)} (hd : distOk hash es)
    {i : Nat} (hi : i < es.length) (hocc : (slotAt es i).occupied = true) :
    (homeOf hash es.length (slotAt es i).key + (slotAt es i).distance) % es.length = i := by
  rw [hd i hi hocc]
  exact pos_of_dist (homeOf_lt (by omega) _) hi

/-- Walking backwards from an occupied slot towards its home bucket, every slot
on the way is occupied and loses at most one unit of probe distance per step. -/
theorem path_inv {hash : K → Nat} {es : List (Entry K V)}
    (hd : distOk hash es) (hrh : rhOk es)
    {i : Nat} (hi : i < es.length) (hocc : (slotAt es i).occupied = true) :
    ∀ t, t ≤ (slotAt es i).distance →
      (slotAt es ((i + es.length - t) % es.length)).occupied = true ∧
        (slotAt es i).distance ≤ (slotAt es ((i + es.length - t) % es.length)).distance + t := by
  have hL : 0 < es.length := by omega
  have hdLt : (slotAt es i).distance < es.length := dist_lt_len hd hi hocc
  intro t
  induction t with
  | zero =>
    intro _
    have h0 : (i + es.length - 0) % es.length = i := by
      have h1 : i + es.length - 0 = i + es.length := by omega
      rw [h1, Nat.add_mod_right, Nat.mod_eq_of_lt hi]
    rw [h0]
    exact ⟨hocc, by omega⟩
  | succ t ih =>
    intro ht
    obtain ⟨hocc1, hdist1⟩ := ih (by omega)
    have hjlt : (i + es.length - t) % es.length < es.length := Nat.mod_lt _ hL
    have hpos : 0 < (slotAt es ((i + es.length - t) % es.length)).distance := by omega
    obtain ⟨ho2, hd2⟩ := hrh _ hjlt hocc1 hpos
    have hprev : prevIdx es.length ((i + es.length - t) % es.length) =
        (i + es.length - (t + 1)) % es.length := by
      unfold prevIdx
      rw [mod_sub_step (by omega : 1 ≤ es.length)]
      have h1 : i + es.length - t + es.length - 1 = (i + es.length - (t + 1)) + es.length := by
        omega
      rw [h1, Nat.add_mod_right]
    rw [hprev] at ho2 hd2
    exact ⟨ho2, by omega⟩

/-- A table whose occupied count is below its length has an unoccupied slot. -/
theorem exists_unoccupied {es : List (Entry K V)}
    (h : countOccupied es < es.length) :
    ∃ j, j < es.length ∧ (slotAt es j).occupied = false := by
  by_contra hno
  push_neg at hno
  have hall : countOccupied es = es.length := by
    unfold countOccupied
    rw [List.countP_eq_length]
    intro e he
    obtain ⟨i, hi, hei⟩ := List.mem_iff_getElem.1 he
    have h1 := hno i hi
    rw [slotAt_eq_getElem hi, hei] at h1
    revert h1
    cases e.occupied <;> simp
  omega

/-- Probing forward from a bucket, an unoccupied slot is reached within length
steps whenever one exists at all. -/
theorem exists_free_offset {es : List (Entry K V)} {b : Nat} (hb : b < es.length)
    (hfree : ∃ j, j < es.length ∧ (slotAt es j).occupied = false) :
    ∃ u, u < es.length ∧ (slotAt es ((b + u) % es.length)).occupied = false := by
  obtain ⟨j, hj, hocc⟩ := hfree
  refine ⟨(j + es.length - b) % es.length, Nat.mod_lt _ (by omega), ?_⟩
  rw [pos_of_dist hb hj]
  exact hocc

/-! The Get probing loop. -/

theorem getLoop_found {hash : K → Nat} {es : List (Entry K V)} {mask : Nat}
    (hmask : ∀ x : Nat, x &&& mask = x % es.length)
    (hd : distOk hash es) (hrh : rhOk es) (huq : uniqOk es)
    {i : Nat} (hi : i < es.length) (hocc : (slotAt es i).occupied = true)
    {k : K} (hkey : (slotAt es i).key = k) :
    ∀ fuel s, s ≤ (slotAt es i).distance → (slotAt es i).distance - s < fuel →
      getLoopN fuel es k s ((homeOf hash es.length k + s) % es.length) mask =
        some (some (slotAt es i).value) := by
  have hL : 0 < es.length := by omega
  have hdLt : (slotAt es i).distance < es.length := dist_lt_len hd hi hocc
  have hhome : (homeOf hash es.length k + (slotAt es i).distance) % es.length = i := by
    rw [← hkey]
    exact home_add_dist hd hi hocc
  have hbLt : homeOf hash es.length k < es.length := homeOf_lt hL k
  intro fuel
  induction fuel with
  | zero => intro s _ h; omega
  | succ fuel ih =>
    intro s hs hfuel
    have hpath := path_inv hd hrh hi hocc ((slotAt es i).distance - s) (by omega)
    rw [path_pos hbLt hdLt (by omega) hhome] at hpath
    obtain ⟨hocc1, hdist1⟩ := hpath
    have hsdist : ¬ ((slotAt es ((homeOf hash es.length k + s) % es.length)).distance < s) := by
      omega
    simp only [getLoopN]
    rw [if_neg (by simp [hocc1, hsdist])]
    by_cases hk : (slotAt es ((homeOf hash es.length k + s) % es.length)).key = k
    · have hip : (homeOf hash es.length k + s) % es.length = i := by
        apply huq _ _ (Nat.mod_lt _ hL) hi hocc1 hocc
        rw [hk, hkey]
      rw [if_pos hk, hip]
    · have hne : s ≠ (slotAt es i).distance := by
        intro hcontra
        apply hk
        rw [hcontra, hhome, hkey]
      rw [if_neg hk, hmask, mod_step]
      exact ih (s + 1) (by omega) (by omega)

theorem getLoop_absent {es : List (Entry K V)} {mask b : Nat}
    (hL : 0 < es.length)
    (hmask : ∀ x : Nat, x &&& mask = x % es.length) {k : K}
    (habs : ∀ i, i < es.length → (slotAt es i).occupied = true → (slotAt es i).key ≠ k) :
    ∀ fuel s, (∃ t, s ≤ t ∧ t - s < fuel ∧
        (slotAt es ((b + t) % es.length)).occupied = false) →
      getLoopN fuel es k s ((b + s) % es.length) mask = some none := by
  intro fuel
  induction fuel with
  | zero =>
    rintro s ⟨t, hst, ht, _⟩
    omega
  | succ fuel ih =>
    rintro s ⟨t, hst, ht, hfree⟩
    simp only [getLoopN]
    by_cases hstop : (slotAt es ((b + s) % es.length)).occupied = false ∨
        (slotAt es ((b + s) % es.length)).distance < s
    · rw [if_pos hstop]
    · rw [if_neg hstop]
      push_neg at hstop
      have hocc : (slotAt es ((b + s) % es.length)).occupied = true := by
        revert hstop
        cases (slotAt es ((b + s) % es.length)).occupied <;> simp
      rw [if_neg (habs _ (Nat.mod_lt _ hL) hocc)]
      rw [hmask, mod_step]
      apply ih (s + 1)
      have hts : t ≠ s := by
        intro hcontra
        rw [hcontra] at hfree
        rw [hfree] at hocc
        cases hocc
      exact ⟨t, by omega, by omega, hfree⟩

/-! More circular-index facts. -/

theorem prevIdx_lt {L i : Nat} (hL : 0 < L) : prevIdx L i < L :=
  Nat.mod_lt _ hL

theorem prevIdx_ne {L i : Nat} (hL : 1 < L) (hi : i < L) : prevIdx L i ≠ i := by
  intro hcontra
  have h1 : (i + (L - 1)) % L = (i + 0) % L := by
    unfold prevIdx at hcontra
    have h2 : i + L - 1 = i + (L - 1) := by omega
    rw [h2] at hcontra
    rw [hcontra, Nat.add_zero, Nat.mod_eq_of_lt hi]
  have := offset_inj (by omega : L - 1 < L) (by omega : 0 < L) h1
  omega

theorem next_ne {L i : Nat} (hL : 1 < L) (hi : i < L) : (i + 1) % L ≠ i := by
  intro hcontra
  have h1 : (i + 1) % L = (i + 0) % L := by
    rw [hcontra, Nat.add_zero, Nat.mod_eq_of_lt hi]
  have := offset_inj hL (by omega : 0 < L) h1
  omega

theorem prev_of_next {L i : Nat} (hi : i < L) : prevIdx L ((i + 1) % L) = i := by
  have h := @prev_offset L i 0 (by omega)
  simp only [Nat.zero_add, Nat.add_zero] at h
  rwa [Nat.mod_eq_of_lt hi] at h

theorem next_of_prev {L j : Nat} (hL : 0 < L) (hj : j < L) :
    (prevIdx L j + 1) % L = j := by
  unfold prevIdx
  rw [mod_step]
  have h : j + L - 1 + 1 = j + L := by omega
  rw [h, Nat.add_mod_right, Nat.mod_eq_of_lt hj]

/-- Least unoccupied offset on the probe path from a bucket. -/
theorem exists_first_free {es : List (Entry K V)} {b : Nat} (hb : b < es.length)
    (hfree : ∃ j, j < es.length ∧ (slotAt es j).occupied = false) :
    ∃ u, u < es.length ∧ (slotAt es ((b + u) % es.length)).occupied = false ∧
      ∀ r, r < u → (slotAt es ((b + r) % es.length)).occupied = true := by
  obtain ⟨u0, hu0, hocc0⟩ := exists_free_offset hb hfree
  have hex : ∃ t, (slotAt es ((b + t) % es.length)).occupied = false := ⟨u0, hocc0⟩
  refine ⟨Nat.find hex, lt_of_le_of_lt (Nat.find_min' hex hocc0) hu0,
    Nat.find_spec hex, ?_⟩
  intro r hr
  have h1 := Nat.find_min hex hr
  cases h2 : (slotAt es ((b + r) % es.length)).occupied
  · exact absurd h2 h1
  · rfl

theorem count_lt_len {hash : K → Nat} {m : RobinHoodMap K V} (hwf : WF hash m) :
    countOccupied m.entries < m.entries.length := by
  have h1 := countOccupied_eq_pairs_length m.entries
  have h2 := hwf.sizeEq
  have h3 := hwf.load
  have h4 := hwf.lenPos
  omega

theorem home_as_start {hash : K → Nat} {L : Nat} (hL : 0 < L) (k : K) :
    hash k % L = (homeOf hash L k + 0) % L := by
  rw [Nat.add_zero, Nat.mod_eq_of_lt (homeOf_lt hL k)]
  rfl

/-! Get against a well-formed table. -/

theorem get_found {hash : K → Nat} {m : RobinHoodMap K V} (hwf : WF hash m)
    {i : Nat} {k : K} (hp : presentAt m i k) :
    getN hash m k = some (some (slotAt m.entries i).value) := by
  obtain ⟨hi, hocc, hkey⟩ := hp
  have hL : 0 < m.entries.length := hwf.lenPos
  unfold getN
  rw [hwf.maskMod, home_as_start hL k]
  have hdl := dist_lt_len hwf.dist hi hocc
  exact getLoop_found hwf.maskMod hwf.dist hwf.rh hwf.uniq hi hocc hkey
    m.entries.length 0 (by omega) (by omega)

theorem get_absent {hash : K → Nat} {m : RobinHoodMap K V} (hwf : WF hash m)
    {k : K} (ha : absentKey m k) : getN hash m k = some none := by
  have hL : 0 < m.entries.length := hwf.lenPos
  obtain ⟨u, hu, hfreeu⟩ :=
    exists_free_offset (homeOf_lt hL k) (exists_unoccupied (count_lt_len hwf))
  unfold getN
  rw [hwf.maskMod, home_as_start hL k]
  exact getLoop_absent hL hwf.maskMod ha m.entries.length 0 ⟨u, by omega, by omega, hfreeu⟩

/-! The Put probing loop on a key that is already stored: pure in-place value
update, nothing else is touched. -/

theorem putLoop_found {hash : K → Nat} {es : List (Entry K V)} {mask : Nat}
    (hmask : ∀ x : Nat, x &&& mask = x % es.length)
    (hd : distOk hash es) (hrh : rhOk es) (huq : uniqOk es)
    {i : Nat} (hi : i < es.length) (hocc : (slotAt es i).occupied = true)
    {k : K} (hkey : (slotAt es i).key = k) (v : V) :
    ∀ fuel s, s ≤ (slotAt es i).distance → (slotAt es i).distance - s < fuel →
      putLoopN fuel es k v s ((homeOf hash es.length k + s) % es.length) mask =
        some (es.set i ⟨(slotAt es i).key, v, (slotAt es i).distance,
          (slotAt es i).occupied⟩, false) := by
  have hL : 0 < es.length := by omega
  have hdLt : (slotAt es i).distance < es.length := dist_lt_len hd hi hocc
  have hhome : (homeOf hash es.length k + (slotAt es i).distance) % es.length = i := by
    rw [← hkey]
    exact home_add_dist hd hi hocc
  have hbLt : homeOf hash es.length k < es.length := homeOf_lt hL k
  intro fuel
  induction fuel with
  | zero => intro s _ h; omega
  | succ fuel ih =>
    intro s hs hfuel
    have hpath := path_inv hd hrh hi hocc ((slotAt es i).distance - s) (by omega)
    rw [path_pos hbLt hdLt (by omega) hhome] at hpath
    obtain ⟨hocc1, hdist1⟩ := hpath
    have hsdist : ¬ ((slotAt es ((homeOf hash es.length k + s) % es.length)).distance < s) := by
      omega
    simp only [putLoopN]
    rw [if_neg (by simp [hocc1])]
    by_cases hk : (slotAt es ((homeOf hash es.length k + s) % es.length)).key = k
    · have hip : (homeOf hash es.length k + s) % es.length = i := by
        apply huq _ _ (Nat.mod_lt _ hL) hi hocc1 hocc
        rw [hk, hkey]
      rw [if_pos hk, hip]
    · have hne : s ≠ (slotAt es i).distance := by
        intro hcontra
        apply hk
        rw [hcontra, hhome, hkey]
      rw [if_neg hk, if_neg hsdist, hmask, mod_step]
      exact ih (s + 1) (by omega) (by omega)

theorem entryPairs_occ {e : Entry K V} (h : e.occupied = true) :
    entryPairs e = [(e.key, e.value)] := by
  simp [entryPairs, h]

theorem entryPairs_unocc {e : Entry K V} (h : e.occupied = false) :
    entryPairs e = [] := by
  simp [entryPairs, h]

/-- The Put probing loop on a key stored in no slot: it terminates at the first
unoccupied slot of the probe path, creates exactly one entry, preserves the
structural invariants, and the stored pairs afterwards are the old ones plus
the carried pair. -/
theorem putLoop_go {hash : K → Nat} {mask h0 : Nat} :
    ∀ (fuel : Nat) (es : List (Entry K V)) (ck : K) (cv : V) (cd s : Nat),
      (∀ x : Nat, x &&& mask = x % es.length) →
      1 < es.length →
      PutInv hash h0 es ck cd s →
      (∃ t, s ≤ t ∧ t < es.length ∧ t - s < fuel ∧
        (slotAt es ((h0 + t) % es.length)).occupied = false ∧
        ∀ r, s ≤ r → r < t → (slotAt es ((h0 + r) % es.length)).occupied = true) →
      ∃ es2, putLoopN fuel es ck cv cd ((h0 + s) % es.length) mask = some (es2, true) ∧
        es2.length = es.length ∧ distOk hash es2 ∧ rhOk es2 ∧ uniqOk es2 ∧
        (pairsOf es2).Perm ((ck, cv) :: pairsOf es) := by
  intro fuel
  induction fuel with
  | zero =>
    rintro es ck cv cd s _ _ _ ⟨t, hst, _, htf, _, _⟩
    omega
  | succ fuel ih =>
    rintro es ck cv cd s hmask hL1 hinv ⟨t, hst, htL, htf, hfreeT, hbef⟩
    have hL : 0 < es.length := by omega
    have hpLt : (h0 + s) % es.length < es.length := Nat.mod_lt _ hL
    have hhk : homeOf hash es.length ck < es.length := homeOf_lt hL ck
    by_cases hos : (slotAt es ((h0 + s) % es.length)).occupied = false
    · -- the current slot is free: place the carried candidate here
      have hts : t = s := by
        by_contra hne
        have h1 := hbef s (le_refl s) (by omega)
        rw [h1] at hos
        cases hos
      have hsL : s < es.length := by omega
      have hcdL : cd < es.length := by
        have := hinv.cdLe
        omega
      have hdist_eq : ((h0 + s) % es.length + es.length -
          homeOf hash es.length ck) % es.length = cd := by
        rw [← hinv.posCong]
        exact offset_of_pos hhk hcdL
      refine ⟨es.set ((h0 + s) % es.length) ⟨ck, cv, cd, true⟩, ?_, List.length_set .., ?_, ?_, ?_, ?_⟩
      · simp only [putLoopN]
        rw [if_pos hos]
      · -- distOk
        intro j hj hocc
        simp only [List.length_set] at hj ⊢
        by_cases hjp : j = (h0 + s) % es.length
        · subst hjp
          rw [slotAt_set_self hpLt] at hocc ⊢
          exact hdist_eq.symm
        · rw [slotAt_set_ne (Ne.symm hjp)] at hocc ⊢
          exact hinv.dOk j hj hocc
      · -- rhOk
        intro j hj hocc hdpos
        simp only [List.length_set] at hj ⊢
        by_cases hjp : j = (h0 + s) % es.length
        · subst hjp
          rw [slotAt_set_self hpLt] at hocc hdpos ⊢
          have hcd0 : 0 < cd := hdpos
          obtain ⟨ho2, hd2⟩ := hinv.cr hcd0
          have hpne := prevIdx_ne hL1 hpLt
          rw [slotAt_set_ne (Ne.symm hpne)]
          exact ⟨ho2, hd2⟩
        · have hjne : ((h0 + s) % es.length) ≠ j := Ne.symm hjp
          rw [slotAt_set_ne hjne] at hocc hdpos
          by_cases hjq : j = ((h0 + s) % es.length + 1) % es.length
          · -- the old table had this slot following an unoccupied one
            obtain ⟨ho2, _⟩ := hinv.rOk j hj hocc hdpos
            rw [hjq, prev_of_next hpLt] at ho2
            rw [ho2] at hos
            cases hos
          · obtain ⟨ho2, hd2⟩ := hinv.rOk j hj hocc hdpos
            have hprevne : ((h0 + s) % es.length) ≠ prevIdx es.length j := by
              intro hcontra
              apply hjq
              have h1 := next_of_prev hL hj
              rw [← hcontra] at h1
              exact h1.symm
            rw [slotAt_set_ne hjne, slotAt_set_ne hprevne]
            exact ⟨ho2, hd2⟩
      · -- uniqOk
        intro i j hi hj hocci hoccj hkeys
        simp only [List.length_set] at hi hj
        by_cases hip : i = (h0 + s) % es.length <;>
          by_cases hjp : j = (h0 + s) % es.length
        · rw [hip, hjp]
        · subst hip
          rw [slotAt_set_self hpLt] at hkeys
          rw [slotAt_set_ne (Ne.symm hjp)] at hoccj hkeys
          exact absurd hkeys.symm (hinv.carried j hj hoccj)
        · subst hjp
          rw [slotAt_set_self hpLt] at hkeys
          rw [slotAt_set_ne (Ne.symm hip)] at hocci hkeys
          exact absurd hkeys (hinv.carried i hi hocci)
        · rw [slotAt_set_ne (Ne.symm hip)] at hocci hkeys
          rw [slotAt_set_ne (Ne.symm hjp)] at hoccj hkeys
          exact hinv.uOk i j hi hj hocci hoccj hkeys
      · -- pairs
        have hset := pairsOf_set hpLt (⟨ck, cv, cd, true⟩ : Entry K V)
        rw [entryPairs_unocc hos, entryPairs_occ (rfl : (⟨ck, cv, cd, true⟩ : Entry K V).occupied = true)] at hset
        rw [List.append_nil] at hset
        exact hset
    · -- the current slot is occupied
      have hoccP : (slotAt es ((h0 + s) % es.length)).occupied = true := by
        cases h2 : (slotAt es ((h0 + s) % es.length)).occupied
        · exact absurd h2 hos
        · rfl
      have hslt : s < t := by
        rcases Nat.lt_or_ge s t with h | h
        · exact h
        · have hts : t = s := by omega
          rw [hts] at hfreeT
          rw [hfreeT] at hoccP
          cases hoccP
      have hcds : cd ≤ s := hinv.cdLe
      have hcdL : cd < es.length := by omega
      simp only [putLoopN]
      rw [if_neg (by simp [hoccP]), if_neg (hinv.carried _ hpLt hoccP)]
      by_cases hsw : (slotAt es ((h0 + s) % es.length)).distance < cd
      · -- swap: the carried candidate takes this slot, its resident is carried on
        rw [if_pos hsw]
        have hcd0 : 0 < cd := by omega
        have hdist_eq : ((h0 + s) % es.length + es.length -
            homeOf hash es.length ck) % es.length = cd := by
          rw [← hinv.posCong]
          exact offset_of_pos hhk hcdL
        have hedhome := home_add_dist hinv.dOk hpLt hoccP
        have hinv2 : PutInv hash h0
            (es.set ((h0 + s) % es.length)
              ⟨ck, cv, cd, true⟩) (slotAt es ((h0 + s) % es.length)).key
            ((slotAt es ((h0 + s) % es.length)).distance + 1) (s + 1) := by
          refine ⟨?_, ?_, ?_, ?_, ?_, by omega, ?_⟩
          · -- distOk
            intro j hj hocc
            simp only [List.length_set] at hj ⊢
            by_cases hjp : j = (h0 + s) % es.length
            · subst hjp
              rw [slotAt_set_self hpLt] at hocc ⊢
              exact hdist_eq.symm
            · rw [slotAt_set_ne (Ne.symm hjp)] at hocc ⊢
              exact hinv.dOk j hj hocc
          · -- rhOk
            intro j hj hocc hdpos
            simp only [List.length_set] at hj ⊢
            by_cases hjp : j = (h0 + s) % es.length
            · subst hjp
              rw [slotAt_set_self hpLt] at hocc hdpos ⊢
              obtain ⟨ho2, hd2⟩ := hinv.cr hcd0
              have hpne := prevIdx_ne hL1 hpLt
              rw [slotAt_set_ne (Ne.symm hpne)]
              exact ⟨ho2, hd2⟩
            · have hjne : ((h0 + s) % es.length) ≠ j := Ne.symm hjp
              rw [slotAt_set_ne hjne] at hocc hdpos
              by_cases hjq : j = ((h0 + s) % es.length + 1) % es.length
              · obtain ⟨ho2, hd2⟩ := hinv.rOk j hj hocc hdpos
                subst hjq
                rw [prev_of_next hpLt] at ho2 hd2
                have hne3 : ((h0 + s) % es.length) ≠
                    ((h0 + s) % es.length + 1) % es.length :=
                  fun hh => next_ne hL1 hpLt hh.symm
                rw [prev_of_next hpLt, slotAt_set_self hpLt, slotAt_set_ne hne3]
                refine ⟨rfl, ?_⟩
                show (slotAt es (((h0 + s) % es.length + 1) % es.length)).distance ≤ cd + 1
                omega
              · obtain ⟨ho2, hd2⟩ := hinv.rOk j hj hocc hdpos
                have hprevne : ((h0 + s) % es.length) ≠ prevIdx es.length j := by
                  intro hcontra
                  apply hjq
                  have h1 := next_of_prev hL hj
                  rw [← hcontra] at h1
                  exact h1.symm
                rw [slotAt_set_ne hjne, slotAt_set_ne hprevne]
                exact ⟨ho2, hd2⟩
          · -- uniqOk
            intro i j hi hj hocci hoccj hkeys
            simp only [List.length_set] at hi hj
            by_cases hip : i = (h0 + s) % es.length <;>
              by_cases hjp : j = (h0 + s) % es.length
            · rw [hip, hjp]
            · subst hip
              rw [slotAt_set_self hpLt] at hkeys
              rw [slotAt_set_ne (Ne.symm hjp)] at hoccj hkeys
              exact absurd hkeys.symm (hinv.carried j hj hoccj)
            · subst hjp
              rw [slotAt_set_self hpLt] at hkeys
              rw [slotAt_set_ne (Ne.symm hip)] at hocci hkeys
              exact absurd hkeys (hinv.carried i hi hocci)
            · rw [slotAt_set_ne (Ne.symm hip)] at hocci hkeys
              rw [slotAt_set_ne (Ne.symm hjp)] at hoccj hkeys
              exact hinv.uOk i j hi hj hocci hoccj hkeys
          · -- the ousted resident is in no slot of the new table
            intro i hi hocc
            simp only [List.length_set] at hi
            by_cases hip : i = (h0 + s) % es.length
            · subst hip
              rw [slotAt_set_self hpLt]
              intro hcontra
              exact hinv.carried _ hpLt hoccP hcontra.symm
            · rw [slotAt_set_ne (Ne.symm hip)] at hocc ⊢
              intro hcontra
              exact hip (hinv.uOk i _ hi hpLt hocc hoccP hcontra)
          · -- position congruence for the new carried candidate
            simp only [List.length_set]
            rw [← Nat.add_assoc, ← mod_step es.length
              (homeOf hash es.length (slotAt es ((h0 + s) % es.length)).key +
                (slotAt es ((h0 + s) % es.length)).distance), hedhome]
            rw [← Nat.add_assoc, ← mod_step es.length (h0 + s)]
          · -- carried Robin Hood bound at the next position
            intro _
            simp only [List.length_set]
            rw [prev_offset hL, slotAt_set_self hpLt]
            refine ⟨rfl, ?_⟩
            show (slotAt es ((h0 + s) % es.length)).distance + 1 ≤ cd + 1
            omega
        have hmask2 : ∀ x : Nat, x &&& mask =
            x % (es.set ((h0 + s) % es.length) ⟨ck, cv, cd, true⟩).length := by
          intro x
          rw [List.length_set]
          exact hmask x
        have hwit2 : ∃ t2, s + 1 ≤ t2 ∧
            t2 < (es.set ((h0 + s) % es.length) ⟨ck, cv, cd, true⟩).length ∧
            t2 - (s + 1) < fuel ∧
            (slotAt (es.set ((h0 + s) % es.length) ⟨ck, cv, cd, true⟩)
              ((h0 + t2) % (es.set ((h0 + s) % es.length) ⟨ck, cv, cd, true⟩).length)).occupied
              = false ∧
            ∀ r, s + 1 ≤ r → r < t2 →
              (slotAt (es.set ((h0 + s) % es.length) ⟨ck, cv, cd, true⟩)
                ((h0 + r) % (es.set ((h0 + s) % es.length) ⟨ck, cv, cd, true⟩).length)).occupied
                = true := by
          have hsL : s < es.length := by omega
          refine ⟨t, by omega, ?_, by omega, ?_, ?_⟩
          · rw [List.length_set]
            exact htL
          · rw [List.length_set]
            have hne : ((h0 + s) % es.length) ≠ (h0 + t) % es.length := by
              intro hcontra
              have := offset_inj hsL htL hcontra
              omega
            rw [slotAt_set_ne hne]
            exact hfreeT
          · intro r hr1 hr2
            rw [List.length_set]
            by_cases hrp : ((h0 + s) % es.length) = (h0 + r) % es.length
            · rw [← hrp, slotAt_set_self hpLt]
            · rw [slotAt_set_ne hrp]
              exact hbef r (by omega) hr2
        obtain ⟨es2, heq2, hlen2, hdo2, hro2, huo2, hperm2⟩ :=
          ih (es.set ((h0 + s) % es.length) ⟨ck, cv, cd, true⟩)
            (slotAt es ((h0 + s) % es.length)).key
            (slotAt es ((h0 + s) % es.length)).value
            ((slotAt es ((h0 + s) % es.length)).distance + 1) (s + 1) hmask2
            (by rw [List.length_set]; exact hL1) hinv2 hwit2
        rw [List.length_set] at heq2 hlen2
        refine ⟨es2, ?_, hlen2, hdo2, hro2, huo2, ?_⟩
        · rw [hmask, mod_step, Nat.add_assoc]
          exact heq2
        · have hset := pairsOf_set hpLt (⟨ck, cv, cd, true⟩ : Entry K V)
          rw [entryPairs_occ hoccP,
            entryPairs_occ (rfl : (⟨ck, cv, cd, true⟩ : Entry K V).occupied = true)] at hset
          exact hperm2.trans ((List.perm_append_comm).trans hset)
      · -- no swap: keep probing with the same slots
        rw [if_neg hsw]
        rw [hmask, mod_step, Nat.add_assoc]
        have hinv2 : PutInv hash h0 es ck (cd + 1) (s + 1) := by
          refine ⟨hinv.dOk, hinv.rOk, hinv.uOk, hinv.carried, ?_, by omega, ?_⟩
          · rw [← Nat.add_assoc, ← mod_step es.length
              (homeOf hash es.length ck + cd), hinv.posCong]
            rw [← Nat.add_assoc, ← mod_step es.length (h0 + s)]
          · intro _
            rw [prev_offset hL]
            have := hsw
            exact ⟨hoccP, by omega⟩
        exact ih es ck cv (cd + 1) (s + 1) hmask hL1 hinv2
          ⟨t, by omega, htL, by omega, hfreeT, fun r hr1 hr2 => hbef r (by omega) hr2⟩

/-! The assembled Put without resizeN. -/

theorem putCore_absent {hash : K → Nat} {m : RobinHoodMap K V} (hwf : WF hash m)
    {k : K} (ha : absentKey m k)
    (hload : 4 * (m.size + 1) ≤ 3 * m.entries.length) (v : V) :
    ∃ m2, putCoreN hash m k v = some m2 ∧ WF hash m2 ∧
      (pairsOf m2.entries).Perm ((k, v) :: pairsOf m.entries) ∧
      m2.size = m.size + 1 ∧ m2.entries.length = m.entries.length ∧ m2.mask = m.mask := by
  have hL : 0 < m.entries.length := hwf.lenPos
  have hL1 : 1 < m.entries.length := by
    have := hwf.len8
    omega
  have hinv : PutInv hash (homeOf hash m.entries.length k) m.entries k 0 0 :=
    ⟨hwf.dist, hwf.rh, hwf.uniq, ha, rfl, le_refl 0, fun h => absurd h (by omega)⟩
  obtain ⟨u, huL, hufree, hubef⟩ :=
    exists_first_free (homeOf_lt hL k) (exists_unoccupied (count_lt_len hwf))
  obtain ⟨es2, heq, hlen, hdo, hro, huo, hperm⟩ :=
    putLoop_go m.entries.length m.entries k v 0 0 hwf.maskMod hL1 hinv
      ⟨u, by omega, huL, by omega, hufree, fun r _ hr2 => hubef r hr2⟩
  refine ⟨⟨es2, m.size + 1, m.mask⟩, ?_, ?_, hperm, rfl, hlen, rfl⟩
  · unfold putCoreN
    rw [hwf.maskMod, home_as_start hL k, heq]
    rfl
  · obtain ⟨t, ht3, hteq⟩ := hwf.pow
    refine ⟨⟨t, ht3, by rw [hlen]; exact hteq⟩, ?_, ?_, ?_, hdo, hro, huo⟩
    · show m.mask = es2.length - 1
      rw [hlen]
      exact hwf.maskEq
    · show m.size + 1 = (pairsOf es2).length
      rw [hperm.length_eq, List.length_cons, ← hwf.sizeEq]
    · show 4 * (m.size + 1) ≤ 3 * es2.length
      rw [hlen]
      exact hload

theorem putCore_present {hash : K → Nat} {m : RobinHoodMap K V} (hwf : WF hash m)
    {i : Nat} {k : K} (hp : presentAt m i k) (v : V) :
    putCoreN hash m k v = some ⟨m.entries.set i ⟨(slotAt m.entries i).key, v,
      (slotAt m.entries i).distance, (slotAt m.entries i).occupied⟩, m.size, m.mask⟩ := by
  obtain ⟨hi, hocc, hkey⟩ := hp
  have hL : 0 < m.entries.length := hwf.lenPos
  have hdl := dist_lt_len hwf.dist hi hocc
  unfold putCoreN
  rw [hwf.maskMod, home_as_start hL k,
    putLoop_found hwf.maskMod hwf.dist hwf.rh hwf.uniq hi hocc hkey v
      m.entries.length 0 (by omega) (by omega)]
  rfl

/-- Overwriting one stored value in place preserves well-formedness. -/
theorem wf_setValue {hash : K → Nat} {m : RobinHoodMap K V} (hwf : WF hash m)
    {i : Nat} (hi : i < m.entries.length)
    (hocc : (slotAt m.entries i).occupied = true) (v : V) :
    WF hash ⟨m.entries.set i ⟨(slotAt m.entries i).key, v,
      (slotAt m.entries i).distance, (slotAt m.entries i).occupied⟩, m.size, m.mask⟩ := by
  have hfields : ∀ j,
      (slotAt (m.entries.set i ⟨(slotAt m.entries i).key, v,
        (slotAt m.entries i).distance, (slotAt m.entries i).occupied⟩) j).occupied =
          (slotAt m.entries j).occupied ∧
      (slotAt (m.entries.set i ⟨(slotAt m.entries i).key, v,
        (slotAt m.entries i).distance, (slotAt m.entries i).occupied⟩) j).key =
          (slotAt m.entries j).key ∧
      (slotAt (m.entries.set i ⟨(slotAt m.entries i).key, v,
        (slotAt m.entries i).distance, (slotAt m.entries i).occupied⟩) j).distance =
          (slotAt m.entries j).distance := by
    intro j
    by_cases hji : i = j
    · subst hji
      rw [slotAt_set_self hi]
      exact ⟨rfl, rfl, rfl⟩
    · rw [slotAt_set_ne hji]
      exact ⟨rfl, rfl, rfl⟩
  have hlenset := pairsOf_set hi (⟨(slotAt m.entries i).key, v,
    (slotAt m.entries i).distance, (slotAt m.entries i).occupied⟩ : Entry K V)
  have hlen2 := hlenset.length_eq
  rw [entryPairs_occ hocc,
    entryPairs_occ (show (⟨(slotAt m.entries i).key, v, (slotAt m.entries i).distance,
      (slotAt m.entries i).occupied⟩ : Entry K V).occupied = true from hocc)] at hlen2
  simp only [List.length_append, List.length_cons, List.length_nil] at hlen2
  obtain ⟨t, ht3, hteq⟩ := hwf.pow
  refine ⟨⟨t, ht3, by simpa using hteq⟩, by simpa using hwf.maskEq, ?_,
    by simpa using hwf.load, ?_, ?_, ?_⟩
  · show m.size = (pairsOf (m.entries.set i ⟨(slotAt m.entries i).key, v,
      (slotAt m.entries i).distance, (slotAt m.entries i).occupied⟩)).length
    have := hwf.sizeEq
    omega
  · intro j hj hocc2
    obtain ⟨ho, hk2, hd2⟩ := hfields j
    simp only [List.length_set] at hj ⊢
    rw [ho] at hocc2
    rw [hd2, hk2]
    exact hwf.dist j hj hocc2
  · intro j hj hocc2 hdpos
    obtain ⟨ho, hk2, hd2⟩ := hfields j
    obtain ⟨hop, hkp, hdp⟩ := hfields (prevIdx m.entries.length j)
    simp only [List.length_set] at hj ⊢
    rw [ho] at hocc2
    rw [hd2] at hdpos
    rw [hop, hd2, hdp]
    exact hwf.rh j hj hocc2 hdpos
  · intro a b ha hb hocca hoccb hkeys
    obtain ⟨hoa, hka, _⟩ := hfields a
    obtain ⟨hob, hkb, _⟩ := hfields b
    simp only [List.length_set] at ha hb
    rw [hoa] at hocca
    rw [hob] at hoccb
    rw [hka, hkb] at hkeys
    exact hwf.uniq a b ha hb hocca hoccb hkeys

/-! Fresh tables, resizeN, and the assembled Put. -/

theorem default_occupied : (default : Entry K V).occupied = false := rfl

theorem pairsOf_replicate (n : Nat) :
    pairsOf (List.replicate n (default : Entry K V)) = [] := by
  induction n with
  | zero => rfl
  | succ n ih =>
    rw [List.replicate_succ, pairsOf_cons, ih, entryPairs_unocc default_occupied,
      List.append_nil]

theorem wf_fresh {hash : K → Nat} {t : Nat} (ht : 3 ≤ t) :
    WF hash (⟨List.replicate (2 ^ t) default, 0, 2 ^ t - 1⟩ : RobinHoodMap K V) := by
  refine ⟨⟨t, ht, by simp⟩, by simp, ?_, by simp, ?_, ?_, ?_⟩
  · show (0 : Nat) = (pairsOf (List.replicate (2 ^ t) (default : Entry K V))).length
    rw [pairsOf_replicate]
    rfl
  · intro i hi hocc
    rw [slotAt_replicate, default_occupied] at hocc
    cases hocc
  · intro i hi hocc
    rw [slotAt_replicate, default_occupied] at hocc
    cases hocc
  · intro i j hi hj hocci hoccj hkeys
    rw [slotAt_replicate, default_occupied] at hocci
    cases hocci

theorem needsResize_false {m : RobinHoodMap K V} (h : needsResize m = false) :
    4 * (m.size + 1) ≤ 3 * m.entries.length := by
  unfold needsResize at h
  simp only [decide_eq_false_iff_not] at h
  omega

/-- Re-insertion of pairwise-distinct occupied entries into a table with
enough headroom: every nested Put finds its load-factor guard off (this is the
no-retrigger argument for resizeN), and the fold accumulates exactly the
re-inserted pairs. -/
theorem reinsert_go {hash : K → Nat} :
    ∀ (rest : List (Entry K V)) (acc : RobinHoodMap K V),
      WF hash acc →
      List.Pairwise (fun a b => a.occupied = true → b.occupied = true →
        a.key ≠ b.key) rest →
      (∀ e ∈ rest, e.occupied = true → ∀ j, j < acc.entries.length →
        (slotAt acc.entries j).occupied = true → (slotAt acc.entries j).key ≠ e.key) →
      4 * (acc.size + countOccupied rest) ≤ 3 * acc.entries.length →
      ∃ m2, reinsertN hash rest acc = some m2 ∧ WF hash m2 ∧
        (pairsOf m2.entries).Perm (pairsOf rest ++ pairsOf acc.entries) ∧
        m2.entries.length = acc.entries.length ∧ m2.mask = acc.mask ∧
        m2.size = acc.size + countOccupied rest := by
  intro rest
  induction rest with
  | nil =>
    intro acc hwf _ _ _
    refine ⟨acc, rfl, hwf, ?_, rfl, rfl, rfl⟩
    rw [pairsOf_nil, List.nil_append]
  | cons e rest ih =>
    intro acc hwf hpw hdisj hroom
    rw [List.pairwise_cons] at hpw
    obtain ⟨hpwHead, hpwTail⟩ := hpw
    by_cases hocc : e.occupied = true
    · have hcnt : countOccupied (e :: rest) = countOccupied rest + 1 := by
        simp [countOccupied, List.countP_cons, hocc]
      rw [hcnt] at hroom
      have hnr : needsResize acc = false := by
        unfold needsResize
        simp only [decide_eq_false_iff_not]
        omega
      have habs : absentKey acc e.key := fun j hj hoccj =>
        hdisj e (List.mem_cons_self e rest) hocc j hj hoccj
      obtain ⟨acc1, hput, hwf1, hperm1, hsize1, hlen1, hmask1⟩ :=
        putCore_absent hwf habs (by omega) e.value
      have hdisj1 : ∀ e2 ∈ rest, e2.occupied = true → ∀ j, j < acc1.entries.length →
          (slotAt acc1.entries j).occupied = true →
          (slotAt acc1.entries j).key ≠ e2.key := by
        intro e2 he2 hocc2 j hj hoccj hkeyeq
        have hmem : ((slotAt acc1.entries j).key, (slotAt acc1.entries j).value) ∈
            pairsOf acc1.entries := mem_pairsOf.2 ⟨j, hj, hoccj, rfl, rfl⟩
        have hmem2 := hperm1.mem_iff.1 hmem
        rcases List.mem_cons.1 hmem2 with hhd | htl
        · have hk : e2.key = e.key := by
            rw [← hkeyeq]
            exact congrArg Prod.fst hhd
          exact hpwHead e2 he2 hocc hocc2 hk.symm
        · obtain ⟨j2, hj2, hoccj2, hkj2, _⟩ := mem_pairsOf.1 htl
          apply hdisj e2 (List.mem_cons_of_mem e he2) hocc2 j2 hj2 hoccj2
          rw [hkj2]
          exact hkeyeq
      have hroom1 : 4 * (acc1.size + countOccupied rest) ≤ 3 * acc1.entries.length := by
        rw [hsize1, hlen1]
        omega
      obtain ⟨m2, hrei, hwf2, hperm2, hlen2, hmask2, hsize2⟩ :=
        ih acc1 hwf1 hpwTail hdisj1 hroom1
      refine ⟨m2, ?_, hwf2, ?_, by rw [hlen2, hlen1], by rw [hmask2, hmask1], ?_⟩
      · simp only [reinsertN]
        rw [if_pos hocc, if_neg (by simp [hnr]), hput, Option.some_bind]
        exact hrei
      · rw [pairsOf_cons, entryPairs_occ hocc]
        exact hperm2.trans ((hperm1.append_left (pairsOf rest)).trans
          (perm_middle_swap (pairsOf rest) [(e.key, e.value)] (pairsOf acc.entries)))
      · rw [hsize2, hsize1, hcnt]
        omega
    · have hocc2 : e.occupied = false := by
        cases h2 : e.occupied
        · rfl
        · exact absurd h2 hocc
      have hcnt : countOccupied (e :: rest) = countOccupied rest := by
        simp [countOccupied, List.countP_cons, hocc2]
      rw [hcnt] at hroom
      have hdisj2 : ∀ e2 ∈ rest, e2.occupied = true → ∀ j, j < acc.entries.length →
          (slotAt acc.entries j).occupied = true →
          (slotAt acc.entries j).key ≠ e2.key :=
        fun e2 he2 => hdisj e2 (List.mem_cons_of_mem e he2)
      obtain ⟨m2, hrei, hwf2, hperm2, hlen2, hmask2, hsize2⟩ :=
        ih acc hwf hpwTail hdisj2 hroom
      refine ⟨m2, ?_, hwf2, ?_, hlen2, hmask2, ?_⟩
      · simp only [reinsertN]
        rw [if_neg (by simp [hocc2]), Option.some_bind]
        exact hrei
      · rw [pairsOf_cons, entryPairs_unocc hocc2, List.nil_append]
        exact hperm2
      · rw [hsize2, hcnt]

theorem resize_spec {hash : K → Nat} {m : RobinHoodMap K V} (hwf : WF hash m) :
    ∃ m2, resizeN hash m = some m2 ∧ WF hash m2 ∧
      (pairsOf m2.entries).Perm (pairsOf m.entries) ∧
      m2.entries.length = 2 * m.entries.length ∧ m2.size = m.size := by
  obtain ⟨t, ht3, hLeq⟩ := hwf.pow
  have h2t : m.entries.length * 2 = 2 ^ (t + 1) := by
    rw [hLeq]
    ring
  have hfresh : WF hash (⟨List.replicate (m.entries.length * 2) default, 0,
      m.entries.length * 2 - 1⟩ : RobinHoodMap K V) := by
    rw [h2t]
    exact wf_fresh (by omega)
  have hpw : List.Pairwise (fun a b : Entry K V => a.occupied = true →
      b.occupied = true → a.key ≠ b.key) m.entries := by
    rw [List.pairwise_iff_getElem]
    intro i j hi hj hij hocca hoccb hkeys
    rw [← slotAt_eq_getElem hi] at hocca hkeys
    rw [← slotAt_eq_getElem hj] at hoccb hkeys
    have := hwf.uniq i j hi hj hocca hoccb hkeys
    omega
  have hdisj : ∀ e ∈ m.entries, e.occupied = true → ∀ j,
      j < (List.replicate (m.entries.length * 2) (default : Entry K V)).length →
      (slotAt (List.replicate (m.entries.length * 2) (default : Entry K V)) j).occupied =
        true →
      (slotAt (List.replicate (m.entries.length * 2)
        (default : Entry K V)) j).key ≠ e.key := by
    intro e he hocc j hj hoccj
    rw [slotAt_replicate, default_occupied] at hoccj
    cases hoccj
  have hroom : 4 * (0 + countOccupied m.entries) ≤
      3 * (List.replicate (m.entries.length * 2) (default : Entry K V)).length := by
    rw [List.length_replicate, Nat.zero_add]
    have h1 := countOccupied_eq_pairs_length m.entries
    have h2 := hwf.sizeEq
    have h3 := hwf.load
    omega
  obtain ⟨m2, hrei, hwf2, hperm2, hlen2, hmask2, hsize2⟩ :=
    reinsert_go m.entries ⟨List.replicate (m.entries.length * 2) default, 0,
      m.entries.length * 2 - 1⟩ hfresh hpw hdisj hroom
  refine ⟨m2, hrei, hwf2, ?_, ?_, ?_⟩
  · simp only [pairsOf_replicate, List.append_nil] at hperm2
    exact hperm2
  · simp only [List.length_replicate] at hlen2
    omega
  · simp only [] at hsize2
    have h1 := countOccupied_eq_pairs_length m.entries
    have h2 := hwf.sizeEq
    omega

theorem present_or_absent (m : RobinHoodMap K V) (k : K) :
    (∃ i, presentAt m i k) ∨ absentKey m k := by
  by_cases h : ∃ i, presentAt m i k
  · exact Or.inl h
  · right
    intro i hi hocc hkey
    exact h ⟨i, hi, hocc, hkey⟩

/-- Put on an absent key: always succeeds, adds the pair, increments size. -/
theorem put_absent {hash : K → Nat} {m : RobinHoodMap K V} (hwf : WF hash m)
    {k : K} (ha : absentKey m k) (v : V) :
    ∃ m2, putN hash m k v = some m2 ∧ WF hash m2 ∧
      (pairsOf m2.entries).Perm ((k, v) :: pairsOf m.entries) ∧
      m2.size = m.size + 1 := by
  unfold putN
  by_cases hnr : needsResize m = true
  · rw [if_pos hnr]
    obtain ⟨m1, hres, hwf1, hperm1, hlen1, hsize1⟩ := resize_spec hwf
    rw [hres, Option.some_bind]
    have ha1 : absentKey m1 k := by
      intro j hj hoccj hkeyj
      have hmem : ((slotAt m1.entries j).key, (slotAt m1.entries j).value) ∈
          pairsOf m1.entries := mem_pairsOf.2 ⟨j, hj, hoccj, rfl, rfl⟩
      have hmem2 := hperm1.mem_iff.1 hmem
      obtain ⟨j2, hj2, hocc2, hkey2, _⟩ := mem_pairsOf.1 hmem2
      apply ha j2 hj2 hocc2
      rw [hkey2]
      exact hkeyj
    have hload1 : 4 * (m1.size + 1) ≤ 3 * m1.entries.length := by
      have h8 := hwf.len8
      have hl := hwf.load
      rw [hsize1, hlen1]
      omega
    obtain ⟨m2, hput, hwf2, hperm2, hsize2, _, _⟩ := putCore_absent hwf1 ha1 hload1 v
    exact ⟨m2, hput, hwf2, hperm2.trans (hperm1.cons (k, v)), by rw [hsize2, hsize1]⟩
  · rw [if_neg hnr, Option.some_bind]
    have hnr2 : needsResize m = false := by
      cases h2 : needsResize m
      · rfl
      · exact absurd h2 hnr
    obtain ⟨m2, hput, hwf2, hperm2, hsize2, _, _⟩ :=
      putCore_absent hwf ha (needsResize_false hnr2) v
    exact ⟨m2, hput, hwf2, hperm2, hsize2⟩

/-- Put on a present key: always succeeds, updates the stored value, keeps
size; when no resizeN fires the update is literally one slot write (theorem
putCore_present gives that form). -/
theorem put_present {hash : K → Nat} {m : RobinHoodMap K V} (hwf : WF hash m)
    {i : Nat} {k : K} (hp : presentAt m i k) (v : V) :
    ∃ m2, putN hash m k v = some m2 ∧ WF hash m2 ∧ m2.size = m.size ∧
      ∃ j, presentAt m2 j k ∧ (slotAt m2.entries j).value = v := by
  unfold putN
  by_cases hnr : needsResize m = true
  · rw [if_pos hnr]
    obtain ⟨m1, hres, hwf1, hperm1, hlen1, hsize1⟩ := resize_spec hwf
    rw [hres, Option.some_bind]
    obtain ⟨hi, hocc, hkey⟩ := hp
    have hmem : (k, (slotAt m.entries i).value) ∈ pairsOf m.entries :=
      mem_pairsOf.2 ⟨i, hi, hocc, hkey, rfl⟩
    obtain ⟨j, hj, hoccj, hkeyj, _⟩ := mem_pairsOf.1 (hperm1.mem_iff.2 hmem)
    have hp1 : presentAt m1 j k := ⟨hj, hoccj, hkeyj⟩
    rw [putCore_present hwf1 hp1 v]
    refine ⟨_, rfl, wf_setValue hwf1 hj hoccj v, by rw [hsize1], j, ⟨?_, ?_, ?_⟩, ?_⟩
    · show j < (m1.entries.set j _).length
      rw [List.length_set]
      exact hj
    · show (slotAt (m1.entries.set j _) j).occupied = true
      rw [slotAt_set_self hj]
      exact hoccj
    · show (slotAt (m1.entries.set j _) j).key = k
      rw [slotAt_set_self hj]
      exact hkeyj
    · show (slotAt (m1.entries.set j _) j).value = v
      rw [slotAt_set_self hj]
  · rw [if_neg hnr, Option.some_bind]
    obtain ⟨hi, hocc, hkey⟩ := hp
    rw [putCore_present hwf ⟨hi, hocc, hkey⟩ v]
    refine ⟨_, rfl, wf_setValue hwf hi hocc v, rfl, i, ⟨?_, ?_, ?_⟩, ?_⟩
    · show i < (m.entries.set i _).length
      rw [List.length_set]
      exact hi
    · show (slotAt (m.entries.set i _) i).occupied = true
      rw [slotAt_set_self hi]
      exact hocc
    · show (slotAt (m.entries.set i _) i).key = k
      rw [slotAt_set_self hi]
      exact hkey
    · show (slotAt (m.entries.set i _) i).value = v
      rw [slotAt_set_self hi]

/-- Put always succeeds on a well-formed table and afterwards the key is
stored with the written value. -/
theorem put_total {hash : K → Nat} {m : RobinHoodMap K V} (hwf : WF hash m)
    (k : K) (v : V) :
    ∃ m2, putN hash m k v = some m2 ∧ WF hash m2 ∧
      ∃ j, presentAt m2 j k ∧ (slotAt m2.entries j).value = v := by
  rcases present_or_absent m k with ⟨i, hp⟩ | ha
  · obtain ⟨m2, heq, hwf2, _, hj⟩ := put_present hwf hp v
    exact ⟨m2, heq, hwf2, hj⟩
  · obtain ⟨m2, heq, hwf2, hperm2, _⟩ := put_absent hwf ha v
    have hmem : (k, v) ∈ pairsOf m2.entries :=
      hperm2.mem_iff.2 (List.mem_cons_self _ _)
    obtain ⟨j, hjl, hjo, hjk, hjv⟩ := mem_pairsOf.1 hmem
    exact ⟨m2, heq, hwf2, j, ⟨hjl, hjo, hjk⟩, hjv⟩

/-! The backward-shift loop of Remove. -/

theorem mod_pred {L X d : Nat} (hL : 0 < L) (hd : (X + 1) % L = d) (hd1 : 1 ≤ d) :
    X % L = d - 1 := by
  rw [← mod_step] at hd
  have h1 : X % L < L := Nat.mod_lt _ hL
  rcases Nat.lt_or_ge (X % L + 1) L with h | h
  · rw [Nat.mod_eq_of_lt h] at hd
    omega
  · have h2 : X % L + 1 = L := by omega
    rw [h2, Nat.mod_self] at hd
    omega

theorem clearSlot_length (es : List (Entry K V)) (q : Nat) :
    (clearSlot es q).length = es.length := by
  unfold clearSlot
  exact List.length_set ..

theorem slotAt_clearSlot_self {es : List (Entry K V)} {q : Nat} (hq : q < es.length) :
    slotAt (clearSlot es q) q = ⟨(slotAt es q).key, (slotAt es q).value,
      (slotAt es q).distance, false⟩ := by
  unfold clearSlot
  exact slotAt_set_self hq _

theorem slotAt_clearSlot_ne {es : List (Entry K V)} {q j : Nat} (h : q ≠ j) :
    slotAt (clearSlot es q) j = slotAt es j := by
  unfold clearSlot
  exact slotAt_set_ne h _

/-- The backward-shift loop: starting from an occupied slot q in a table whose
probe distances are exact and locally Robin Hood, and whose keys are unique
apart from the stale entry at q, the loop terminates at the first stopping slot
(unoccupied or at home), restores all invariants, and holds exactly the pairs
of the table with slot q cleared. -/
theorem shiftLoop_go {hash : K → Nat} {mask : Nat} :
    ∀ (fuel : Nat) (es : List (Entry K V)) (q : Nat),
      (∀ y : Nat, y &&& mask = y % es.length) →
      1 < es.length →
      q < es.length →
      (slotAt es q).occupied = true →
      distOk hash es →
      rhOk es →
      uniqOk (clearSlot es q) →
      (∃ w, 1 ≤ w ∧ w ≤ fuel ∧ w < es.length ∧
        ((slotAt es ((q + w) % es.length)).occupied = false ∨
          (slotAt es ((q + w) % es.length)).distance = 0)) →
      ∃ es2, shiftLoop fuel es q ((q + 1) &&& mask) mask = some es2 ∧
        es2.length = es.length ∧ distOk hash es2 ∧ rhOk es2 ∧ uniqOk es2 ∧
        (pairsOf es2).Perm (pairsOf (clearSlot es q)) := by
  intro fuel
  induction fuel with
  | zero =>
    rintro es q _ _ _ _ _ _ _ ⟨w, hw1, hwfuel, _, _⟩
    omega
  | succ fuel ih =>
    rintro es q hmask hL1 hq hoccq hdOk hrOk huq ⟨w, hw1, hwfuel, hwL, hstopw⟩
    have hL : 0 < es.length := by omega
    have hxq : ((q + 1) % es.length) ≠ q := next_ne hL1 hq
    have hqx : q ≠ (q + 1) % es.length := fun hh => hxq hh.symm
    have hx : (q + 1) % es.length < es.length := Nat.mod_lt _ hL
    simp only [shiftLoop]
    rw [hmask]
    by_cases hstop : (slotAt es ((q + 1) % es.length)).occupied = false ∨
        (slotAt es ((q + 1) % es.length)).distance = 0
    · rw [if_pos hstop]
      have hdOk2 : distOk hash (clearSlot es q) := by
        intro j hj hocc
        rw [clearSlot_length] at hj
        by_cases hjq : j = q
        · subst hjq
          rw [slotAt_clearSlot_self hq] at hocc
          simp at hocc
        · rw [slotAt_clearSlot_ne (Ne.symm hjq)] at hocc ⊢
          rw [clearSlot_length]
          exact hdOk j hj hocc
      have hrOk2 : rhOk (clearSlot es q) := by
        intro j hj hocc hdpos
        rw [clearSlot_length] at hj ⊢
        by_cases hjq : j = q
        · subst hjq
          rw [slotAt_clearSlot_self hq] at hocc
          simp at hocc
        · rw [slotAt_clearSlot_ne (Ne.symm hjq)] at hocc hdpos ⊢
          by_cases hjx : j = (q + 1) % es.length
          · subst hjx
            rcases hstop with h1 | h1
            · rw [hocc] at h1
              cases h1
            · rw [h1] at hdpos
              omega
          · obtain ⟨ho2, hd2⟩ := hrOk j hj hocc hdpos
            have hprevq : prevIdx es.length j ≠ q := by
              intro hcontra
              apply hjx
              have h1 := next_of_prev hL hj
              rw [hcontra] at h1
              exact h1.symm
            rw [slotAt_clearSlot_ne (Ne.symm hprevq)]
            exact ⟨ho2, hd2⟩
      exact ⟨clearSlot es q, rfl, clearSlot_length es q, hdOk2, hrOk2, huq,
        List.Perm.refl _⟩
    · rw [if_neg hstop]
      push_neg at hstop
      obtain ⟨hoccx0, hdx0⟩ := hstop
      have hoccx : (slotAt es ((q + 1) % es.length)).occupied = true := by
        cases h2 : (slotAt es ((q + 1) % es.length)).occupied
        · exact absurd h2 hoccx0
        · rfl
      have hdx1 : 1 ≤ (slotAt es ((q + 1) % es.length)).distance := by omega
      rcases hex : slotAt es ((q + 1) % es.length) with ⟨kx, vx, dx, ox⟩
      have hox : ox = true := by
        have h2 := hoccx
        rw [hex] at h2
        exact h2
      subst hox
      have hdx1b : 1 ≤ dx := by
        have h2 := hdx1
        rw [hex] at h2
        exact h2
      have hlen2 : (es.set q (⟨kx, vx, dx - 1, true⟩ : Entry K V)).length = es.length :=
        List.length_set ..
      have hmask2 : ∀ y : Nat, y &&& mask =
          y % (es.set q (⟨kx, vx, dx - 1, true⟩ : Entry K V)).length := by
        intro y
        rw [hlen2]
        exact hmask y
      have hoccq2 : (slotAt (es.set q (⟨kx, vx, dx - 1, true⟩ : Entry K V))
          ((q + 1) % es.length)).occupied = true := by
        rw [slotAt_set_ne hqx, hex]
      have hbx : homeOf hash es.length kx < es.length := homeOf_lt hL kx
      have hdxeq : dx = ((q + 1) % es.length + es.length -
          homeOf hash es.length kx) % es.length := by
        have h1 := hdOk _ hx hoccx
        rw [hex] at h1
        exact h1
      have hdxpred : (q + es.length - homeOf hash es.length kx) % es.length = dx - 1 := by
        rw [mod_sub_step (le_of_lt hbx)] at hdxeq
        have h1 : q + 1 + es.length - homeOf hash es.length kx =
            (q + es.length - homeOf hash es.length kx) + 1 := by omega
        rw [h1] at hdxeq
        exact mod_pred hL hdxeq.symm hdx1b
      have hdOk2 : distOk hash (es.set q (⟨kx, vx, dx - 1, true⟩ : Entry K V)) := by
        intro j hj hocc
        simp only [List.length_set] at hj ⊢
        by_cases hjq : j = q
        · rw [hjq]
          rw [slotAt_set_self hq]
          exact hdxpred.symm
        · rw [slotAt_set_ne (Ne.symm hjq)] at hocc ⊢
          exact hdOk j hj hocc
      have hrOk2 : rhOk (es.set q (⟨kx, vx, dx - 1, true⟩ : Entry K V)) := by
        intro j hj hocc hdpos
        simp only [List.length_set] at hj ⊢
        by_cases hjq : j = q
        · rw [hjq] at hdpos ⊢
          rw [slotAt_set_self hq] at hdpos ⊢
          have hdpos2 : 0 < dx - 1 := hdpos
          obtain ⟨hoq, hdq⟩ := hrOk _ hx hoccx (by rw [hex]; show 0 < dx; omega)
          rw [prev_of_next hq] at hoq hdq
          have hdq2 : (slotAt es ((q + 1) % es.length)).distance ≤
              (slotAt es q).distance + 1 := hdq
          rw [hex] at hdq2
          have hdq3 : dx ≤ (slotAt es q).distance + 1 := hdq2
          obtain ⟨hoprev, hdprev⟩ := hrOk q hq hoccq (by omega)
          have hprevne : prevIdx es.length q ≠ q := prevIdx_ne hL1 hq
          rw [slotAt_set_ne (Ne.symm hprevne)]
          refine ⟨hoprev, ?_⟩
          show dx - 1 ≤ (slotAt es (prevIdx es.length q)).distance + 1
          omega
        · have hjne : q ≠ j := Ne.symm hjq
          rw [slotAt_set_ne hjne] at hocc hdpos
          by_cases hjx : j = (q + 1) % es.length
          · subst hjx
            rw [prev_of_next hq, slotAt_set_self hq, slotAt_set_ne hjne, hex]
            refine ⟨rfl, ?_⟩
            show dx ≤ dx - 1 + 1
            omega
          · obtain ⟨ho2, hd2⟩ := hrOk j hj hocc hdpos
            have hprevq : prevIdx es.length j ≠ q := by
              intro hcontra
              apply hjx
              have h1 := next_of_prev hL hj
              rw [hcontra] at h1
              exact h1.symm
            rw [slotAt_set_ne hjne, slotAt_set_ne (Ne.symm hprevq)]
            exact ⟨ho2, hd2⟩
      have huq2 : uniqOk (clearSlot (es.set q (⟨kx, vx, dx - 1, true⟩ : Entry K V))
          ((q + 1) % es.length)) := by
        have hq2 : q < (es.set q (⟨kx, vx, dx - 1, true⟩ : Entry K V)).length := by
          rw [hlen2]
          exact hq
        have hx2 : (q + 1) % es.length <
            (es.set q (⟨kx, vx, dx - 1, true⟩ : Entry K V)).length := by
          rw [hlen2]
          exact hx
        intro i j hi hj hocci hoccj hkeys
        rw [clearSlot_length, hlen2] at hi hj
        by_cases hix : i = (q + 1) % es.length
        · subst hix
          rw [slotAt_clearSlot_self hx2] at hocci
          simp at hocci
        · by_cases hjx : j = (q + 1) % es.length
          · subst hjx
            rw [slotAt_clearSlot_self hx2] at hoccj
            simp at hoccj
          · rw [slotAt_clearSlot_ne (fun hh => hix hh.symm)] at hocci hkeys
            rw [slotAt_clearSlot_ne (fun hh => hjx hh.symm)] at hoccj hkeys
            have hclen : ∀ y, y < es.length → y < (clearSlot es q).length := by
              intro y hy
              rw [clearSlot_length]
              exact hy
            by_cases hiq : i = q <;> by_cases hjq : j = q
            · rw [hiq, hjq]
            · exfalso
              rw [hiq] at hkeys
              rw [slotAt_set_self hq] at hkeys
              rw [slotAt_set_ne (Ne.symm hjq)] at hoccj hkeys
              have hkeys2 : kx = (slotAt es j).key := hkeys
              have h1 : (slotAt (clearSlot es q) j).occupied = true := by
                rw [slotAt_clearSlot_ne (Ne.symm hjq)]
                exact hoccj
              have h2 : (slotAt (clearSlot es q) ((q + 1) % es.length)).occupied = true := by
                rw [slotAt_clearSlot_ne hqx, hex]
              have h3 : (slotAt (clearSlot es q) j).key =
                  (slotAt (clearSlot es q) ((q + 1) % es.length)).key := by
                rw [slotAt_clearSlot_ne (Ne.symm hjq), slotAt_clearSlot_ne hqx, hex]
                exact hkeys2.symm
              exact hjx (huq j ((q + 1) % es.length) (hclen j hj) (hclen _ hx) h1 h2 h3)
            · exfalso
              rw [hjq] at hkeys
              rw [slotAt_set_self hq] at hkeys
              rw [slotAt_set_ne (Ne.symm hiq)] at hocci hkeys
              have hkeys2 : (slotAt es i).key = kx := hkeys
              have h1 : (slotAt (clearSlot es q) i).occupied = true := by
                rw [slotAt_clearSlot_ne (Ne.symm hiq)]
                exact hocci
              have h2 : (slotAt (clearSlot es q) ((q + 1) % es.length)).occupied = true := by
                rw [slotAt_clearSlot_ne hqx, hex]
              have h3 : (slotAt (clearSlot es q) i).key =
                  (slotAt (clearSlot es q) ((q + 1) % es.length)).key := by
                rw [slotAt_clearSlot_ne (Ne.symm hiq), slotAt_clearSlot_ne hqx, hex]
                exact hkeys2
              exact hix (huq i ((q + 1) % es.length) (hclen i hi) (hclen _ hx) h1 h2 h3)
            · rw [slotAt_set_ne (Ne.symm hiq)] at hocci hkeys
              rw [slotAt_set_ne (Ne.symm hjq)] at hoccj hkeys
              apply huq i j (hclen i hi) (hclen j hj)
              · rw [slotAt_clearSlot_ne (Ne.symm hiq)]
                exact hocci
              · rw [slotAt_clearSlot_ne (Ne.symm hjq)]
                exact hoccj
              · rw [slotAt_clearSlot_ne (Ne.symm hiq), slotAt_clearSlot_ne (Ne.symm hjq)]
                exact hkeys
      have hw2 : w ≠ 1 := by
        intro hcontra
        subst hcontra
        rcases hstopw with h1 | h1
        · rw [hoccx] at h1
          cases h1
        · omega
      have hwit2 : ∃ w2, 1 ≤ w2 ∧ w2 ≤ fuel ∧
          w2 < (es.set q (⟨kx, vx, dx - 1, true⟩ : Entry K V)).length ∧
          ((slotAt (es.set q (⟨kx, vx, dx - 1, true⟩ : Entry K V))
            (((q + 1) % es.length + w2) %
              (es.set q (⟨kx, vx, dx - 1, true⟩ : Entry K V)).length)).occupied = false ∨
          (slotAt (es.set q (⟨kx, vx, dx - 1, true⟩ : Entry K V))
            (((q + 1) % es.length + w2) %
              (es.set q (⟨kx, vx, dx - 1, true⟩ : Entry K V)).length)).distance = 0) := by
        refine ⟨w - 1, by omega, by omega, ?_, ?_⟩
        · rw [hlen2]
          omega
        · rw [hlen2]

          have hpos : ((q + 1) % es.length + (w - 1)) % es.length =
              (q + w) % es.length := by
            rw [Nat.mod_add_mod]
            have h1 : q + 1 + (w - 1) = q + w := by omega
            rw [h1]
          rw [hpos]
          have hwq : (q + w) % es.length ≠ q := by
            intro hcontra
            have h1 : (q + w) % es.length = (q + 0) % es.length := by
              rw [hcontra, Nat.add_zero, Nat.mod_eq_of_lt hq]
            have := offset_inj hwL hL h1
            omega
          rw [slotAt_set_ne (fun hh => hwq hh.symm)]
          exact hstopw
      obtain ⟨es3, heq3, hlen3, hdo3, hro3, huo3, hperm3⟩ :=
        ih (es.set q (⟨kx, vx, dx - 1, true⟩ : Entry K V)) ((q + 1) % es.length)
          hmask2 (by rw [hlen2]; exact hL1) (by rw [hlen2]; exact hx) hoccq2
          hdOk2 hrOk2 huq2 hwit2
      refine ⟨es3, heq3, by rw [hlen3, hlen2], hdo3, hro3, huo3, ?_⟩
      -- chain the pair permutations through the two slot writes
      have h0 : (q + 1) % es.length <
          (es.set q (⟨kx, vx, dx - 1, true⟩ : Entry K V)).length := by
        rw [hlen2]
        exact hx
      have hsl : slotAt (es.set q (⟨kx, vx, dx - 1, true⟩ : Entry K V))
          ((q + 1) % es.length) = (⟨kx, vx, dx, true⟩ : Entry K V) := by
        rw [slotAt_set_ne hqx, hex]
      have hF1 : (pairsOf (clearSlot (es.set q (⟨kx, vx, dx - 1, true⟩ : Entry K V))
          ((q + 1) % es.length)) ++ [(kx, vx)]).Perm
          (pairsOf (es.set q (⟨kx, vx, dx - 1, true⟩ : Entry K V))) := by
        have hC2 : clearSlot (es.set q (⟨kx, vx, dx - 1, true⟩ : Entry K V))
            ((q + 1) % es.length) =
            (es.set q (⟨kx, vx, dx - 1, true⟩ : Entry K V)).set ((q + 1) % es.length)
              (⟨kx, vx, dx, false⟩ : Entry K V) := by
          unfold clearSlot
          rw [hsl]
        have h2 := pairsOf_set h0 (⟨kx, vx, dx, false⟩ : Entry K V)
        rw [hsl, entryPairs_occ (rfl : (⟨kx, vx, dx, true⟩ : Entry K V).occupied = true),
          entryPairs_unocc (rfl : (⟨kx, vx, dx, false⟩ : Entry K V).occupied = false),
          List.nil_append, ← hC2] at h2
        exact h2
      have hF2 : (pairsOf (es.set q (⟨kx, vx, dx - 1, true⟩ : Entry K V)) ++
          [((slotAt es q).key, (slotAt es q).value)]).Perm
          ((kx, vx) :: pairsOf es) := by
        have h2 := pairsOf_set hq (⟨kx, vx, dx - 1, true⟩ : Entry K V)
        rw [entryPairs_occ hoccq,
          entryPairs_occ (rfl : (⟨kx, vx, dx - 1, true⟩ : Entry K V).occupied = true)] at h2
        exact h2
      have hF3 : (pairsOf (clearSlot es q) ++
          [((slotAt es q).key, (slotAt es q).value)]).Perm (pairsOf es) := by
        have h2 := pairsOf_set hq (⟨(slotAt es q).key, (slotAt es q).value,
          (slotAt es q).distance, false⟩ : Entry K V)
        rw [entryPairs_occ hoccq,
          entryPairs_unocc (rfl : (⟨(slotAt es q).key, (slotAt es q).value,
            (slotAt es q).distance, false⟩ : Entry K V).occupied = false),
          List.nil_append] at h2
        exact h2
      have hq1 : ((kx, vx) :: pairsOf (clearSlot
          (es.set q (⟨kx, vx, dx - 1, true⟩ : Entry K V)) ((q + 1) % es.length))).Perm
          (pairsOf (es.set q (⟨kx, vx, dx - 1, true⟩ : Entry K V))) :=
        List.perm_append_comm.trans hF1
      have hq3 : (((slotAt es q).key, (slotAt es q).value) ::
          pairsOf (clearSlot es q)).Perm (pairsOf es) :=
        List.perm_append_comm.trans hF3
      have hchain : (((slotAt es q).key, (slotAt es q).value) :: (kx, vx) ::
          pairsOf (clearSlot (es.set q (⟨kx, vx, dx - 1, true⟩ : Entry K V))
            ((q + 1) % es.length))).Perm
          (((slotAt es q).key, (slotAt es q).value) :: (kx, vx) ::
            pairsOf (clearSlot es q)) := by
        refine ((hq1.cons _).trans ((List.perm_append_comm.trans hF2).trans ?_))
        refine ((hq3.symm.cons _).trans ?_)
        exact List.Perm.swap _ _ _
      exact hperm3.trans ((hchain.cons_inv).cons_inv)

/-! The search phase of Remove and the assembled Remove. -/

theorem removeLoop_found {hash : K → Nat} {es : List (Entry K V)} {mask : Nat}
    (hmask : ∀ y : Nat, y &&& mask = y % es.length)
    (hd : distOk hash es) (hrh : rhOk es) (huq : uniqOk es)
    {i : Nat} (hi : i < es.length) (hocc : (slotAt es i).occupied = true)
    {k : K} (hkey : (slotAt es i).key = k) :
    ∀ fuel s, s ≤ (slotAt es i).distance → (slotAt es i).distance - s < fuel →
      removeLoopN fuel es k s ((homeOf hash es.length k + s) % es.length) mask =
        (shiftLoop es.length es i ((i + 1) &&& mask) mask).map fun es2 => (true, es2) := by
  have hL : 0 < es.length := by omega
  have hdLt : (slotAt es i).distance < es.length := dist_lt_len hd hi hocc
  have hhome : (homeOf hash es.length k + (slotAt es i).distance) % es.length = i := by
    rw [← hkey]
    exact home_add_dist hd hi hocc
  have hbLt : homeOf hash es.length k < es.length := homeOf_lt hL k
  intro fuel
  induction fuel with
  | zero => intro s _ h; omega
  | succ fuel ih =>
    intro s hs hfuel
    have hpath := path_inv hd hrh hi hocc ((slotAt es i).distance - s) (by omega)
    rw [path_pos hbLt hdLt (by omega) hhome] at hpath
    obtain ⟨hocc1, hdist1⟩ := hpath
    have hsdist : ¬ ((slotAt es ((homeOf hash es.length k + s) % es.length)).distance < s) := by
      omega
    simp only [removeLoopN]
    rw [if_neg (by simp [hocc1, hsdist])]
    by_cases hk : (slotAt es ((homeOf hash es.length k + s) % es.length)).key = k
    · have hip : (homeOf hash es.length k + s) % es.length = i := by
        apply huq _ _ (Nat.mod_lt _ hL) hi hocc1 hocc
        rw [hk, hkey]
      rw [if_pos hk, hip]
    · have hne : s ≠ (slotAt es i).distance := by
        intro hcontra
        apply hk
        rw [hcontra, hhome, hkey]
      rw [if_neg hk, hmask, mod_step]
      exact ih (s + 1) (by omega) (by omega)

theorem removeLoop_absent {es : List (Entry K V)} {mask b : Nat}
    (hL : 0 < es.length)
    (hmask : ∀ y : Nat, y &&& mask = y % es.length) {k : K}
    (habs : ∀ i, i < es.length → (slotAt es i).occupied = true → (slotAt es i).key ≠ k) :
    ∀ fuel s, (∃ t, s ≤ t ∧ t - s < fuel ∧
        (slotAt es ((b + t) % es.length)).occupied = false) →
      removeLoopN fuel es k s ((b + s) % es.length) mask = some (false, es) := by
  intro fuel
  induction fuel with
  | zero =>
    rintro s ⟨t, hst, ht, _⟩
    omega
  | succ fuel ih =>
    rintro s ⟨t, hst, ht, hfree⟩
    simp only [removeLoopN]
    by_cases hstop : (slotAt es ((b + s) % es.length)).occupied = false ∨
        (slotAt es ((b + s) % es.length)).distance < s
    · rw [if_pos hstop]
    · rw [if_neg hstop]
      push_neg at hstop
      have hocc : (slotAt es ((b + s) % es.length)).occupied = true := by
        cases h2 : (slotAt es ((b + s) % es.length)).occupied
        · exact absurd h2 hstop.1
        · rfl
      rw [if_neg (habs _ (Nat.mod_lt _ hL) hocc), hmask, mod_step]
      apply ih (s + 1)
      have hts : t ≠ s := by
        intro hcontra
        rw [hcontra] at hfree
        rw [hfree] at hocc
        cases hocc
      exact ⟨t, by omega, by omega, hfree⟩

/-- Remove on an absent key: false, and the state is byte-for-byte unchanged. -/
theorem remove_absent {hash : K → Nat} {m : RobinHoodMap K V} (hwf : WF hash m)
    {k : K} (ha : absentKey m k) : removeN hash m k = some (false, m) := by
  have hL : 0 < m.entries.length := hwf.lenPos
  obtain ⟨u, hu, hfreeu⟩ :=
    exists_free_offset (homeOf_lt hL k) (exists_unoccupied (count_lt_len hwf))
  unfold removeN
  rw [hwf.maskMod, home_as_start hL k,
    removeLoop_absent hL hwf.maskMod ha m.entries.length 0 ⟨u, by omega, by omega, hfreeu⟩]
  rfl

/-- Remove on a stored key: true, well-formedness is preserved, exactly that
key leaves the stored pairs, size drops by one, geometry is unchanged. -/
theorem remove_found {hash : K → Nat} {m : RobinHoodMap K V} (hwf : WF hash m)
    {i : Nat} {k : K} (hp : presentAt m i k) :
    ∃ m2, removeN hash m k = some (true, m2) ∧ WF hash m2 ∧
      ((k, (slotAt m.entries i).value) :: pairsOf m2.entries).Perm
        (pairsOf m.entries) ∧
      m2.size + 1 = m.size ∧ m2.entries.length = m.entries.length ∧
      m2.mask = m.mask ∧ absentKey m2 k := by
  obtain ⟨hi, hocc, hkey⟩ := hp
  have hL : 0 < m.entries.length := hwf.lenPos
  have hL1 : 1 < m.entries.length := by
    have := hwf.len8
    omega
  have hdl := dist_lt_len hwf.dist hi hocc
  have huqc : uniqOk (clearSlot m.entries i) := by
    intro a b ha hb hocca hoccb hkeys
    rw [clearSlot_length] at ha hb
    by_cases hai : a = i
    · rw [hai, slotAt_clearSlot_self hi] at hocca
      simp at hocca
    · by_cases hbi : b = i
      · rw [hbi, slotAt_clearSlot_self hi] at hoccb
        simp at hoccb
      · rw [slotAt_clearSlot_ne (Ne.symm hai)] at hocca hkeys
        rw [slotAt_clearSlot_ne (Ne.symm hbi)] at hoccb hkeys
        exact hwf.uniq a b ha hb hocca hoccb hkeys
  obtain ⟨j, hj, hjocc⟩ := exists_unoccupied (count_lt_len hwf)
  have hji : j ≠ i := by
    intro hcontra
    rw [hcontra, hocc] at hjocc
    cases hjocc
  have hwit : ∃ w, 1 ≤ w ∧ w ≤ m.entries.length ∧ w < m.entries.length ∧
      ((slotAt m.entries ((i + w) % m.entries.length)).occupied = false ∨
        (slotAt m.entries ((i + w) % m.entries.length)).distance = 0) := by
    have hmlt : (j + m.entries.length - i) % m.entries.length < m.entries.length :=
      Nat.mod_lt _ hL
    refine ⟨(j + m.entries.length - i) % m.entries.length, ?_, by omega, hmlt, ?_⟩
    · have hpos := pos_of_dist hi hj
      by_contra hzero
      push_neg at hzero
      have h0 : (j + m.entries.length - i) % m.entries.length = 0 := by omega
      rw [h0, Nat.add_zero, Nat.mod_eq_of_lt hi] at hpos
      exact hji hpos.symm
    · left
      rw [pos_of_dist hi hj]
      exact hjocc
  obtain ⟨es2, hshift, hlen2, hdo2, hro2, huo2, hperm2⟩ :=
    shiftLoop_go m.entries.length m.entries i hwf.maskMod hL1 hi hocc
      hwf.dist hwf.rh huqc hwit
  have hmem : (k, (slotAt m.entries i).value) ∈ pairsOf m.entries :=
    mem_pairsOf.2 ⟨i, hi, hocc, hkey, rfl⟩
  have hsz1 : 1 ≤ m.size := by
    have h1 := hwf.sizeEq
    have h2 : pairsOf m.entries ≠ [] := List.ne_nil_of_mem hmem
    have h3 : 0 < (pairsOf m.entries).length := List.length_pos.2 h2
    omega
  have hF3 : (pairsOf (clearSlot m.entries i) ++
      [((slotAt m.entries i).key, (slotAt m.entries i).value)]).Perm
      (pairsOf m.entries) := by
    have h2 := pairsOf_set hi (⟨(slotAt m.entries i).key, (slotAt m.entries i).value,
      (slotAt m.entries i).distance, false⟩ : Entry K V)
    rw [entryPairs_occ hocc,
      entryPairs_unocc (rfl : (⟨(slotAt m.entries i).key, (slotAt m.entries i).value,
        (slotAt m.entries i).distance, false⟩ : Entry K V).occupied = false),
      List.nil_append] at h2
    exact h2
  have hpairs : ((k, (slotAt m.entries i).value) :: pairsOf es2).Perm
      (pairsOf m.entries) := by
    rw [hkey] at hF3
    exact (hperm2.cons _).trans ((List.perm_append_comm).trans hF3)
  have habs2 : absentKey (⟨es2, m.size - 1, m.mask⟩ : RobinHoodMap K V) k := by
    intro ja hja hocca hkeya
    have hj2 : ja < es2.length := hja
    have hocc2 : (slotAt es2 ja).occupied = true := hocca
    have hkeyj2 : (slotAt es2 ja).key = k := hkeya
    have hmemj : ((slotAt es2 ja).key, (slotAt es2 ja).value) ∈ pairsOf es2 :=
      mem_pairsOf.2 ⟨ja, hj2, hocc2, rfl, rfl⟩
    have hmem3 := hperm2.mem_iff.1 hmemj
    obtain ⟨j2, hj3, hocc3, hkey3, _⟩ := mem_pairsOf.1 hmem3
    have hj2i : j2 ≠ i := by
      intro hcontra
      rw [hcontra, slotAt_clearSlot_self hi] at hocc3
      simp at hocc3
    rw [slotAt_clearSlot_ne (Ne.symm hj2i)] at hocc3 hkey3
    rw [clearSlot_length] at hj3
    apply hj2i
    apply hwf.uniq j2 i hj3 hi hocc3 hocc
    rw [hkey3, hkeyj2, ← hkey]
  refine ⟨⟨es2, m.size - 1, m.mask⟩, ?_, ?_, ?_,
    (by show m.size - 1 + 1 = m.size; omega), hlen2, rfl, habs2⟩
  · unfold removeN
    rw [hwf.maskMod, home_as_start hL k,
      removeLoop_found hwf.maskMod hwf.dist hwf.rh hwf.uniq hi hocc hkey
        m.entries.length 0 (by omega) (by omega), hshift]
    rfl
  · obtain ⟨t, ht3, hteq⟩ := hwf.pow
    refine ⟨⟨t, ht3, by rw [hlen2]; exact hteq⟩, ?_, ?_, ?_, hdo2, hro2, huo2⟩
    · show m.mask = es2.length - 1
      rw [hlen2]
      exact hwf.maskEq
    · show m.size - 1 = (pairsOf es2).length
      have h1 := hpairs.length_eq
      rw [List.length_cons] at h1
      have h2 := hwf.sizeEq
      omega
    · show 4 * (m.size - 1) ≤ 3 * es2.length
      rw [hlen2]
      have := hwf.load
      omega
  · exact hpairs

/-- The fresh table is well formed: NewRobinHoodMap is the t = 3 instance of
wf_fresh. -/
theorem wf_new {hash : K → Nat} : WF hash (NewRobinHoodMap : RobinHoodMap K V) := by
  have h : WF hash
      (⟨List.replicate (2 ^ 3) default, 0, 2 ^ 3 - 1⟩ : RobinHoodMap K V) :=
    wf_fresh (Nat.le_refl 3)
  exact h

/-- Clearing any table yields a well-formed table. -/
theorem wf_clear {hash : K → Nat} (m : RobinHoodMap K V) : WF hash (clear m) := by
  have h : WF hash
      (⟨List.replicate (2 ^ 3) default, 0, 2 ^ 3 - 1⟩ : RobinHoodMap K V) :=
    wf_fresh (Nat.le_refl 3)
  exact h

theorem putLoop_eq {L mask : Nat} (hpow : ∃ t, 3 ≤ t ∧ L = 2 ^ t)
    (hmask : mask = L - 1) :
    ∀ (fuel : Nat) (es : List (Entry K V)) (key : K) (value : V)
      (dist index : Nat),
      es.length = L → fuel ≤ L → index < L → dist ≤ 255 →
      (∀ t, t < fuel → (slotAt es ((index + t) % L)).occupied = true →
        (slotAt es ((index + t) % L)).distance ≤ 254) →
      putLoop fuel es key value dist index mask =
        putLoopN fuel es key value dist index mask := by
  have hL : 0 < L := by
    obtain ⟨t, _, rfl⟩ := hpow
    exact Nat.pos_pow_of_pos t (by omega)
  intro fuel
  induction fuel with
  | zero => intro es key value dist index _ _ _ _ _; rfl
  | succ n ih =>
    intro es key value dist index hlen hfuel hidx hdist hs
    simp only [putLoop, putLoopN]
    by_cases h1 : (slotAt es index).occupied = false
    · rw [if_pos h1, if_pos h1]
    · rw [if_neg h1, if_neg h1]
      have hocc : (slotAt es index).occupied = true := by
        revert h1
        cases (slotAt es index).occupied <;> simp
      have hcur : (slotAt es index).distance ≤ 254 := by
        have h0 := hs 0 (Nat.succ_pos n)
        rw [Nat.add_zero, Nat.mod_eq_of_lt hidx] at h0
        exact h0 hocc
      by_cases h2 : (slotAt es index).key = key
      · rw [if_pos h2, if_pos h2]
      · rw [if_neg h2, if_neg h2]
        have hland : (index + 1) &&& mask = (index + 1) % L := land_mask hpow hmask _
        have hne : ∀ t, t < n → (index + 1 + t) % L ≠ index := by
          intro t ht hcontra
          have h3 : (index + (t + 1)) % L = (index + 0) % L := by
            rw [show index + (t + 1) = index + 1 + t from by omega, hcontra]
            rw [Nat.add_zero, Nat.mod_eq_of_lt hidx]
          have h4 : t + 1 = 0 := offset_inj (by omega) hL h3
          omega
        by_cases h3 : (slotAt es index).distance < dist
        · rw [if_pos h3, if_pos h3]
          rw [show ((slotAt es index).distance + 1) % 256 =
              (slotAt es index).distance + 1 from Nat.mod_eq_of_lt (by omega)]
          rw [hland]
          apply ih
          · rw [List.length_set]
            exact hlen
          · omega
          · exact Nat.mod_lt _ hL
          · omega
          · intro t ht
            rw [Nat.mod_add_mod, show (index + 1) + t = index + 1 + t from rfl]
            rw [slotAt_set_ne (fun hcontra => hne t ht hcontra.symm)]
            intro hocct
            have h5 := hs (t + 1) (by omega)
            rw [show index + (t + 1) = index + 1 + t from by omega] at h5
            exact h5 hocct
        · rw [if_neg h3, if_neg h3]
          have hd3 : dist ≤ (slotAt es index).distance := by omega
          rw [show (dist + 1) % 256 = dist + 1 from Nat.mod_eq_of_lt (by omega)]
          rw [hland]
          apply ih
          · exact hlen
          · omega
          · exact Nat.mod_lt _ hL
          · omega
          · intro t ht
            rw [Nat.mod_add_mod]
            intro hocct
            have h5 := hs (t + 1) (by omega)
            rw [show index + (t + 1) = index + 1 + t from by omega] at h5
            exact h5 hocct

theorem getLoop_eq : ∀ (fuel : Nat) (es : List (Entry K V)) (key : K)
    (dist index mask : Nat), dist ≤ 255 →
    (∀ j, (slotAt es j).occupied = true → (slotAt es j).distance ≤ 254) →
    getLoop fuel es key dist index mask = getLoopN fuel es key dist index mask := by
  intro fuel
  induction fuel with
  | zero => intro es key dist index mask _ _; rfl
  | succ n ih =>
    intro es key dist index mask hdist hs
    simp only [getLoop, getLoopN]
    by_cases h1 : (slotAt es index).occupied = false ∨ (slotAt es index).distance < dist
    · rw [if_pos h1, if_pos h1]
    · rw [if_neg h1, if_neg h1]
      by_cases h2 : (slotAt es index).key = key
      · rw [if_pos h2, if_pos h2]
      · rw [if_neg h2, if_neg h2]
        push_neg at h1
        have hocc : (slotAt es index).occupied = true := by
          revert h1
          cases (slotAt es index).occupied <;> simp
        have hcur := hs index hocc
        have hd1 : dist ≤ (slotAt es index).distance := by
          have := h1.2
          omega
        rw [show (dist + 1) % 256 = dist + 1 from Nat.mod_eq_of_lt (by omega)]
        exact ih es key (dist + 1) _ mask (by omega) hs

theorem removeLoop_eq : ∀ (fuel : Nat) (es : List (Entry K V)) (key : K)
    (dist index mask : Nat), dist ≤ 255 →
    (∀ j, (slotAt es j).occupied = true → (slotAt es j).distance ≤ 254) →
    removeLoop fuel es key dist index mask =
      removeLoopN fuel es key dist index mask := by
  intro fuel
  induction fuel with
  | zero => intro es key dist index mask _ _; rfl
  | succ n ih =>
    intro es key dist index mask hdist hs
    simp only [removeLoop, removeLoopN]
    by_cases h1 : (slotAt es index).occupied = false ∨ (slotAt es index).distance < dist
    · rw [if_pos h1, if_pos h1]
    · rw [if_neg h1, if_neg h1]
      by_cases h2 : (slotAt es index).key = key
      · rw [if_pos h2, if_pos h2]
      · rw [if_neg h2, if_neg h2]
        push_neg at h1
        have hocc : (slotAt es index).occupied = true := by
          revert h1
          cases (slotAt es index).occupied <;> simp
        have hcur := hs index hocc
        have hd1 : dist ≤ (slotAt es index).distance := by
          have := h1.2
          omega
        rw [show (dist + 1) % 256 = dist + 1 from Nat.mod_eq_of_lt (by omega)]
        exact ih es key (dist + 1) _ mask (by omega) hs

/-- On a well-formed table of at most 128 slots every occupied slot stores a
distance below the length, hence at most 127. -/
theorem bound254 {hash : K → Nat} {m : RobinHoodMap K V} (hwf : WF hash m)
    (hsmall : m.entries.length ≤ 128) :
    ∀ j, (slotAt m.entries j).occupied = true →
      (slotAt m.entries j).distance ≤ 254 := by
  intro j hocc
  by_cases hj : j < m.entries.length
  · have := dist_lt_len hwf.dist hj hocc
    omega
  · exfalso
    have hdef : slotAt m.entries j = default := by
      unfold slotAt
      exact List.getD_eq_default _ _ (by omega)
    rw [hdef, default_occupied] at hocc
    cases hocc

theorem putCore_eq {hash : K → Nat} {m : RobinHoodMap K V} (hwf : WF hash m)
    (hsmall : m.entries.length ≤ 128) (k : K) (v : V) :
    putCore hash m k v = putCoreN hash m k v := by
  unfold putCore putCoreN
  rw [putLoop_eq hwf.pow hwf.maskEq m.entries.length m.entries k v 0
    (hash k &&& m.mask) rfl (Nat.le_refl _)
    (by rw [hwf.maskMod]; exact Nat.mod_lt _ hwf.lenPos) (by omega)
    (fun t _ => bound254 hwf hsmall _)]

theorem get_eq {hash : K → Nat} {m : RobinHoodMap K V} (hwf : WF hash m)
    (hsmall : m.entries.length ≤ 128) (k : K) :
    get hash m k = getN hash m k := by
  unfold get getN
  exact getLoop_eq _ _ _ _ _ _ (by omega) (bound254 hwf hsmall)

theorem remove_eq {hash : K → Nat} {m : RobinHoodMap K V} (hwf : WF hash m)
    (hsmall : m.entries.length ≤ 128) (k : K) :
    remove hash m k = removeN hash m k := by
  unfold remove removeN
  rw [removeLoop_eq _ _ _ _ _ _ (by omega) (bound254 hwf hsmall)]

theorem reinsert_eq {hash : K → Nat} :
    ∀ (rest : List (Entry K V)) (acc : RobinHoodMap K V),
      WF hash acc → acc.entries.length ≤ 128 →
      reinsert hash rest acc = reinsertN hash rest acc := by
  intro rest
  induction rest with
  | nil => intro acc _ _; rfl
  | cons e rest ih =>
    intro acc hwf hsmall
    simp only [reinsert, reinsertN]
    by_cases hocc : e.occupied = true
    · rw [if_pos hocc, if_pos hocc]
      by_cases hnr : needsResize acc = true
      · rw [if_pos hnr, if_pos hnr]
        rfl
      · rw [if_neg hnr, if_neg hnr]
        rw [putCore_eq hwf hsmall e.key e.value]
        cases hpc : putCoreN hash acc e.key e.value with
        | none => rfl
        | some acc1 =>
          rw [Option.some_bind, Option.some_bind]
          rcases present_or_absent acc e.key with ⟨i, hp⟩ | ha
          · have h2 := putCore_present hwf hp e.value
            rw [h2] at hpc
            have h3 := Option.some.inj hpc
            rw [← h3]
            apply ih
            · exact wf_setValue hwf hp.1 hp.2.1 e.value
            · show (acc.entries.set i _).length ≤ 128
              rw [List.length_set]
              exact hsmall
          · have hnr2 : needsResize acc = false := by
              revert hnr
              cases needsResize acc <;> simp
            have hload : 4 * (acc.size + 1) ≤ 3 * acc.entries.length := by
              unfold needsResize at hnr2
              simp only [decide_eq_false_iff_not] at hnr2
              omega
            obtain ⟨m2, heq, hwf2, _, _, hlen2, _⟩ :=
              putCore_absent hwf ha hload e.value
            rw [heq] at hpc
            have h3 := Option.some.inj hpc
            rw [← h3]
            apply ih
            · exact hwf2
            · rw [hlen2]
              exact hsmall
    · rw [if_neg hocc, if_neg hocc, Option.some_bind, Option.some_bind]
      exact ih acc hwf hsmall

theorem resize_eq {hash : K → Nat} {m : RobinHoodMap K V} (hwf : WF hash m)
    (hsmall : m.entries.length ≤ 64) :
    resize hash m = resizeN hash m := by
  obtain ⟨t, ht3, hLeq⟩ := hwf.pow
  have h2t : m.entries.length * 2 = 2 ^ (t + 1) := by
    rw [hLeq]
    ring
  have hwfF : WF hash (⟨List.replicate (m.entries.length * 2) default, 0,
      m.entries.length * 2 - 1⟩ : RobinHoodMap K V) := by
    rw [h2t]
    exact wf_fresh (by omega)
  unfold resize resizeN
  apply reinsert_eq m.entries _ hwfF
  show (List.replicate (m.entries.length * 2) (default : Entry K V)).length ≤ 128
  rw [List.length_replicate]
  omega

theorem put_eq {hash : K → Nat} {m : RobinHoodMap K V} (hwf : WF hash m)
    (hsmall : m.entries.length ≤ 128)
    (hres : needsResize m = true → m.entries.length ≤ 64) (k : K) (v : V) :
    put hash m k v = putN hash m k v := by
  unfold put putN
  by_cases hnr : needsResize m = true
  · rw [if_pos hnr, if_pos hnr, resize_eq hwf (hres hnr)]
    cases hrs : resizeN hash m with
    | none => rfl
    | some m1 =>
      rw [Option.some_bind, Option.some_bind]
      obtain ⟨m2, heq, hwf2, _, hlen2, _⟩ := resize_spec hwf
      rw [hrs] at heq
      have h3 : m1 = m2 := Option.some.inj heq
      rw [h3]
      apply putCore_eq hwf2 _ k v
      rw [hlen2]
      have := hres hnr
      omega
  · rw [if_neg hnr, if_neg hnr, Option.some_bind, Option.some_bind]
    exact putCore_eq hwf hsmall k v

/-! Distance-free structural facts about the primary loops, valid at every
table size (no bridge needed): lengths are preserved, the occupied count
tracks the created flag, the loops terminate whenever an unoccupied slot is in
reach, and removing an absent key is the identity.  These back the claims that
hold at full generality: the size bookkeeping, the totality of Put, and the
absent-key Remove. -/

theorem countOccupied_set {es : List (Entry K V)} {i : Nat} (hi : i < es.length)
    (e : Entry K V) :
    countOccupied (es.set i e) + (if (slotAt es i).occupied then 1 else 0) =
      countOccupied es + (if e.occupied then 1 else 0) := by
  have h2 := (pairsOf_set hi e).length_eq
  rw [List.length_append, List.length_append] at h2
  have h3 : ∀ e2 : Entry K V, (entryPairs e2).length =
      if e2.occupied then 1 else 0 := by
    intro e2
    unfold entryPairs
    by_cases hocc : e2.occupied
    · rw [if_pos hocc, if_pos hocc]
      rfl
    · rw [if_neg hocc, if_neg hocc]
      rfl
  rw [h3, h3] at h2
  rw [countOccupied_eq_pairs_length, countOccupied_eq_pairs_length]
  omega

theorem occupied_lt_length {es : List (Entry K V)} {i : Nat}
    (hocc : (slotAt es i).occupied = true) : i < es.length := by
  by_contra hge
  have hdef : slotAt es i = default := by
    unfold slotAt
    exact List.getD_eq_default _ _ (by omega)
  rw [hdef, default_occupied] at hocc
  cases hocc

theorem countOccupied_replicate (n : Nat) :
    countOccupied (List.replicate n (default : Entry K V)) = 0 := by
  rw [countOccupied_eq_pairs_length, pairsOf_replicate]
  rfl

theorem putLoop_shape {L mask : Nat}
    (hmask : ∀ x : Nat, x &&& mask = x % L) (hL : 0 < L) :
    ∀ (fuel : Nat) (es : List (Entry K V)) (k : K) (v : V) (d i : Nat)
      (es2 : List (Entry K V)) (flag : Bool),
      es.length = L → i < L →
      putLoop fuel es k v d i mask = some (es2, flag) →
      es2.length = L ∧
        countOccupied es2 = countOccupied es + (if flag = true then 1 else 0) := by
  intro fuel
  induction fuel with
  | zero => intro es k v d i es2 flag _ _ h; cases h
  | succ n ih =>
    intro es k v d i es2 flag hlen hi h
    have hiL : i < es.length := by omega
    simp only [putLoop] at h
    by_cases h1 : (slotAt es i).occupied = false
    · rw [if_pos h1] at h
      have h2 := Option.some.inj h
      have h3 : es.set i ⟨k, v, d, true⟩ = es2 := congrArg Prod.fst h2
      have h4 : flag = true := (congrArg Prod.snd h2).symm
      have h1n : ¬((slotAt es i).occupied = true) := by
        rw [h1]
        simp
      have h5 := countOccupied_set hiL (⟨k, v, d, true⟩ : Entry K V)
      rw [if_neg h1n,
        if_pos (show ((⟨k, v, d, true⟩ : Entry K V)).occupied = true from rfl)] at h5
      refine ⟨by rw [← h3, List.length_set]; exact hlen, ?_⟩
      rw [← h3, h4]
      have h6 : (if (true : Bool) then 1 else 0) = 1 := rfl
      rw [h6]
      omega
    · rw [if_neg h1] at h
      have hocc : (slotAt es i).occupied = true := by
        revert h1
        cases (slotAt es i).occupied <;> simp
      by_cases h2 : (slotAt es i).key = k
      · rw [if_pos h2] at h
        have h3 := Option.some.inj h
        have h4 : es.set i ⟨(slotAt es i).key, v, (slotAt es i).distance,
            (slotAt es i).occupied⟩ = es2 := congrArg Prod.fst h3
        have h5 : flag = false := (congrArg Prod.snd h3).symm
        have h6 := countOccupied_set hiL (⟨(slotAt es i).key, v,
          (slotAt es i).distance, (slotAt es i).occupied⟩ : Entry K V)
        rw [if_pos hocc] at h6
        refine ⟨by rw [← h4, List.length_set]; exact hlen, ?_⟩
        rw [← h4, h5]
        have h8 : (if (false : Bool) then 1 else 0) = 0 := rfl
        rw [h8]
        omega
      · rw [if_neg h2] at h
        by_cases h3 : (slotAt es i).distance < d
        · rw [if_pos h3] at h
          rw [hmask] at h
          have hlen2 : (es.set i ⟨k, v, d, true⟩).length = L := by
            rw [List.length_set]
            exact hlen
          obtain ⟨ha, hb⟩ := ih (es.set i ⟨k, v, d, true⟩) (slotAt es i).key
            (slotAt es i).value (((slotAt es i).distance + 1) % 256)
            ((i + 1) % L) es2 flag hlen2 (Nat.mod_lt _ hL) h
          refine ⟨ha, ?_⟩
          have h6 := countOccupied_set hiL (⟨k, v, d, true⟩ : Entry K V)
          rw [if_pos hocc,
            if_pos (show ((⟨k, v, d, true⟩ : Entry K V)).occupied = true from rfl)] at h6
          omega
        · rw [if_neg h3] at h
          rw [hmask] at h
          exact ih es k v ((d + 1) % 256) ((i + 1) % L) es2 flag hlen
            (Nat.mod_lt _ hL) h

theorem putLoop_total {L mask : Nat}
    (hmask : ∀ x : Nat, x &&& mask = x % L) (hL : 0 < L) :
    ∀ (fuel : Nat) (es : List (Entry K V)) (k : K) (v : V) (d i : Nat),
      es.length = L → i < L → fuel ≤ L →
      (∃ u, u < fuel ∧ (slotAt es ((i + u) % L)).occupied = false) →
      (putLoop fuel es k v d i mask).isSome = true := by
  intro fuel
  induction fuel with
  | zero =>
    rintro es k v d i _ _ _ ⟨u, hu, _⟩
    omega
  | succ n ih =>
    rintro es k v d i hlen hi hfuel ⟨u, hu, hfree⟩
    simp only [putLoop]
    by_cases h1 : (slotAt es i).occupied = false
    · rw [if_pos h1]
      rfl
    · rw [if_neg h1]
      have hocc : (slotAt es i).occupied = true := by
        revert h1
        cases (slotAt es i).occupied <;> simp
      have hu0 : u ≠ 0 := by
        intro hcontra
        rw [hcontra, Nat.add_zero, Nat.mod_eq_of_lt hi] at hfree
        rw [hfree] at hocc
        cases hocc
      have hne : (i + u) % L ≠ i := by
        intro hcontra
        have h3 : (i + u) % L = (i + 0) % L := by
          rw [Nat.add_zero, Nat.mod_eq_of_lt hi]
          exact hcontra
        have h4 : u = 0 := offset_inj (by omega) hL h3
        exact hu0 h4
      have hstep : ((i + 1) % L + (u - 1)) % L = (i + u) % L := by
        rw [Nat.mod_add_mod]
        have h5 : i + 1 + (u - 1) = i + u := by omega
        rw [h5]
      by_cases h2 : (slotAt es i).key = k
      · rw [if_pos h2]
        rfl
      · rw [if_neg h2]
        by_cases h3 : (slotAt es i).distance < d
        · rw [if_pos h3, hmask]
          apply ih _ _ _ _ _ (by rw [List.length_set]; exact hlen)
            (Nat.mod_lt _ hL) (by omega)
          refine ⟨u - 1, by omega, ?_⟩
          rw [hstep, slotAt_set_ne (fun hc => hne hc.symm)]
          exact hfree
        · rw [if_neg h3, hmask]
          apply ih _ _ _ _ _ hlen (Nat.mod_lt _ hL) (by omega)
          refine ⟨u - 1, by omega, ?_⟩
          rw [hstep]
          exact hfree

/-- Basic distance-free invariant of a table state: power-of-two geometry,
size counts the occupied slots, load at most 3/4.  It holds at every reachable
state of the primary (uint8) model, with no bound on the table size. -/
structure Basic (m : RobinHoodMap K V) : Prop where
  pow : ∃ t, 3 ≤ t ∧ m.entries.length = 2 ^ t
  maskEq : m.mask = m.entries.length - 1
  sizeCnt : m.size = countOccupied m.entries
  load : 4 * m.size ≤ 3 * m.entries.length

theorem basic_lenPos {m : RobinHoodMap K V} (h : Basic m) :
    0 < m.entries.length := by
  obtain ⟨t, _, hL⟩ := h.pow
  rw [hL]
  exact Nat.pos_pow_of_pos t (by omega)

theorem basic_len8 {m : RobinHoodMap K V} (h : Basic m) :
    8 ≤ m.entries.length := by
  obtain ⟨t, ht, hL⟩ := h.pow
  rw [hL]
  calc (8 : Nat) = 2 ^ 3 := by norm_num
  _ ≤ 2 ^ t := Nat.pow_le_pow_right (by norm_num) ht

theorem putCore_basic {hash : K → Nat} {m : RobinHoodMap K V}
    (hpow : ∃ t, 3 ≤ t ∧ m.entries.length = 2 ^ t)
    (hmaskEq : m.mask = m.entries.length - 1)
    (hfree : countOccupied m.entries < m.entries.length) (k : K) (v : V) :
    ∃ es2 flag, putCore hash m k v =
        some ⟨es2, if flag = true then m.size + 1 else m.size, m.mask⟩ ∧
      es2.length = m.entries.length ∧
      countOccupied es2 = countOccupied m.entries + (if flag = true then 1 else 0) := by
  have hL : 0 < m.entries.length := by
    obtain ⟨t, _, hLe⟩ := hpow
    rw [hLe]
    exact Nat.pos_pow_of_pos t (by omega)
  have hmask : ∀ x : Nat, x &&& m.mask = x % m.entries.length :=
    land_mask hpow hmaskEq
  have hidx : hash k &&& m.mask < m.entries.length := by
    rw [hmask]
    exact Nat.mod_lt _ hL
  obtain ⟨u, hu, hfreeu⟩ := exists_free_offset hidx (exists_unoccupied hfree)
  have htot := putLoop_total hmask hL m.entries.length m.entries k v 0
    (hash k &&& m.mask) rfl hidx (Nat.le_refl _) ⟨u, hu, hfreeu⟩
  cases hpl : putLoop m.entries.length m.entries k v 0 (hash k &&& m.mask)
      m.mask with
  | none =>
    rw [hpl] at htot
    cases htot
  | some r =>
    obtain ⟨hlen2, hcnt2⟩ := putLoop_shape hmask hL m.entries.length m.entries
      k v 0 (hash k &&& m.mask) r.1 r.2 rfl hidx (by rw [hpl])
    refine ⟨r.1, r.2, ?_, hlen2, hcnt2⟩
    unfold putCore
    rw [hpl]
    rfl

theorem reinsert_basic {hash : K → Nat} :
    ∀ (rest : List (Entry K V)) (acc : RobinHoodMap K V),
      (∃ t, 3 ≤ t ∧ acc.entries.length = 2 ^ t) →
      acc.mask = acc.entries.length - 1 →
      acc.size = countOccupied acc.entries →
      4 * (countOccupied acc.entries + countOccupied rest) ≤
        3 * acc.entries.length →
      ∃ m2, reinsert hash rest acc = some m2 ∧
        m2.entries.length = acc.entries.length ∧ m2.mask = acc.mask ∧
        m2.size = countOccupied m2.entries ∧
        countOccupied m2.entries ≤
          countOccupied acc.entries + countOccupied rest := by
  intro rest
  induction rest with
  | nil =>
    intro acc hpow hmask hsize _
    exact ⟨acc, rfl, rfl, rfl, hsize, by simp [countOccupied]⟩
  | cons e rest ih =>
    intro acc hpow hmask hsize hload
    have hcons : countOccupied (e :: rest) =
        countOccupied rest + (if e.occupied then 1 else 0) := by
      unfold countOccupied
      rw [List.countP_cons]
    simp only [reinsert]
    by_cases hocc : e.occupied = true
    · rw [if_pos hocc] at hcons ⊢
      have hLpos : 0 < acc.entries.length := by
        obtain ⟨t, _, hLe⟩ := hpow
        rw [hLe]
        exact Nat.pos_pow_of_pos t (by omega)
      have hnr : needsResize acc = false := by
        unfold needsResize
        simp only [decide_eq_false_iff_not]
        rw [hsize]
        omega
      rw [hnr]
      have hfree : countOccupied acc.entries < acc.entries.length := by omega
      obtain ⟨es2, flag, heq, hlen2, hcnt2⟩ :=
        putCore_basic hpow hmask hfree e.key e.value
      rw [if_neg (by simp)]
      rw [heq, Option.some_bind]
      have hpow2 : (∃ t, 3 ≤ t ∧
          ((⟨es2, if flag = true then acc.size + 1 else acc.size, acc.mask⟩ :
            RobinHoodMap K V)).entries.length = 2 ^ t) := by
        obtain ⟨t, ht, hLe⟩ := hpow
        exact ⟨t, ht, by rw [← hLe]; exact hlen2⟩
      obtain ⟨m2, heq2, hlen3, hmask3, hsize3, hcnt3⟩ :=
        ih ⟨es2, if flag = true then acc.size + 1 else acc.size, acc.mask⟩ hpow2
          (by show acc.mask = es2.length - 1; rw [hlen2]; exact hmask)
          (by
            show (if flag = true then acc.size + 1 else acc.size) = countOccupied es2
            have h9 : (if flag = true then acc.size + 1 else acc.size) =
                acc.size + (if flag = true then (1 : Nat) else 0) := by
              cases flag <;> rfl
            omega)
          (by
            show 4 * (countOccupied es2 + countOccupied rest) ≤ 3 * es2.length
            have h9 : (if flag = true then (1 : Nat) else 0) ≤ 1 := by
              cases flag <;> decide
            omega)
      refine ⟨m2, heq2, ?_, ?_, hsize3, ?_⟩
      · rw [hlen3]
        exact hlen2
      · exact hmask3
      · have h9 : (if flag = true then (1 : Nat) else 0) ≤ 1 := by
          cases flag <;> decide
        have hcnt3b : countOccupied m2.entries ≤
            countOccupied es2 + countOccupied rest := hcnt3
        omega
    · rw [if_neg hocc] at hcons
      rw [if_neg hocc, Option.some_bind]
      obtain ⟨m2, heq2, hlen3, hmask3, hsize3, hcnt3⟩ :=
        ih acc hpow hmask hsize (by omega)
      exact ⟨m2, heq2, hlen3, hmask3, hsize3, by omega⟩

theorem put_basic {hash : K → Nat} {m : RobinHoodMap K V} (hb : Basic m)
    (k : K) (v : V) :
    ∃ m2, put hash m k v = some m2 ∧ Basic m2 ∧ m2.size ≤ m.size + 1 ∧
      (needsResize m = false → m2.entries.length = m.entries.length) ∧
      (needsResize m = true → m2.entries.length = 2 * m.entries.length) := by
  have hL : 0 < m.entries.length := basic_lenPos hb
  have h8 : 8 ≤ m.entries.length := basic_len8 hb
  unfold put
  by_cases hnr : needsResize m = true
  · rw [if_pos hnr]
    obtain ⟨t, ht, hLe⟩ := hb.pow
    have hpowF : (∃ u, 3 ≤ u ∧
        (List.replicate (m.entries.length * 2) (default : Entry K V)).length =
          2 ^ u) := by
      refine ⟨t + 1, by omega, ?_⟩
      rw [List.length_replicate, hLe]
      ring
    unfold resize
    obtain ⟨m1, heq1, hlen1, hmask1, hsize1, hcnt1⟩ :=
      reinsert_basic m.entries
        ⟨List.replicate (m.entries.length * 2) default, 0,
          m.entries.length * 2 - 1⟩
        hpowF (by rw [List.length_replicate])
        (by rw [countOccupied_replicate])
        (by
          rw [countOccupied_replicate, List.length_replicate]
          have := hb.load
          have := hb.sizeCnt
          omega)
    rw [heq1, Option.some_bind]
    rw [countOccupied_replicate] at hcnt1
    rw [List.length_replicate] at hlen1
    have hpow1 : ∃ u, 3 ≤ u ∧ m1.entries.length = 2 ^ u := by
      refine ⟨t + 1, by omega, ?_⟩
      rw [hlen1, hLe]
      ring
    have hmask1b : m1.mask = m1.entries.length - 1 := by
      rw [hmask1, hlen1]
    have hfree1 : countOccupied m1.entries < m1.entries.length := by
      rw [hlen1]
      have := hb.load
      have := hb.sizeCnt
      omega
    obtain ⟨es2, flag, heq2, hlen2, hcnt2⟩ :=
      putCore_basic hpow1 hmask1b hfree1 k v
    refine ⟨_, heq2, ?_, ?_, ?_, ?_⟩
    · constructor
      · obtain ⟨u, hu, hLe2⟩ := hpow1
        exact ⟨u, hu, by rw [← hLe2]; exact hlen2⟩
      · show m1.mask = es2.length - 1
        rw [hlen2]
        exact hmask1b
      · show (if flag = true then m1.size + 1 else m1.size) = countOccupied es2
        have h9 : (if flag = true then m1.size + 1 else m1.size) =
            m1.size + (if flag = true then (1 : Nat) else 0) := by
          cases flag <;> rfl
        omega
      · show 4 * (if flag = true then m1.size + 1 else m1.size) ≤ 3 * es2.length
        have h9 : (if flag = true then m1.size + 1 else m1.size) =
            m1.size + (if flag = true then (1 : Nat) else 0) := by
          cases flag <;> rfl
        have h10 : (if flag = true then (1 : Nat) else 0) ≤ 1 := by
          cases flag <;> decide
        have := hb.load
        have := hb.sizeCnt
        omega
    · show (if flag = true then m1.size + 1 else m1.size) ≤ m.size + 1
      have h9 : (if flag = true then m1.size + 1 else m1.size) =
          m1.size + (if flag = true then (1 : Nat) else 0) := by
        cases flag <;> rfl
      have h10 : (if flag = true then (1 : Nat) else 0) ≤ 1 := by
        cases flag <;> decide
      have := hb.sizeCnt
      omega
    · intro hc
      rw [hnr] at hc
      cases hc
    · intro _
      show es2.length = 2 * m.entries.length
      rw [hlen2, hlen1]
      ring
  · rw [if_neg hnr, Option.some_bind]
    have hnr2 : needsResize m = false := by
      revert hnr
      cases needsResize m <;> simp
    have hload2 : 4 * (m.size + 1) ≤ 3 * m.entries.length := by
      unfold needsResize at hnr2
      simp only [decide_eq_false_iff_not] at hnr2
      omega
    have hfree : countOccupied m.entries < m.entries.length := by
      have := hb.sizeCnt
      omega
    obtain ⟨es2, flag, heq2, hlen2, hcnt2⟩ :=
      putCore_basic hb.pow hb.maskEq hfree k v
    refine ⟨_, heq2, ?_, ?_, ?_, ?_⟩
    · constructor
      · obtain ⟨u, hu, hLe2⟩ := hb.pow
        exact ⟨u, hu, by rw [← hLe2]; exact hlen2⟩
      · show m.mask = es2.length - 1
        rw [hlen2]
        exact hb.maskEq
      · show (if flag = true then m.size + 1 else m.size) = countOccupied es2
        have h9 : (if flag = true then m.size + 1 else m.size) =
            m.size + (if flag = true then (1 : Nat) else 0) := by
          cases flag <;> rfl
        have := hb.sizeCnt
        omega
      · show 4 * (if flag = true then m.size + 1 else m.size) ≤ 3 * es2.length
        have h9 : (if flag = true then m.size + 1 else m.size) =
            m.size + (if flag = true then (1 : Nat) else 0) := by
          cases flag <;> rfl
        have h10 : (if flag = true then (1 : Nat) else 0) ≤ 1 := by
          cases flag <;> decide
        have := hb.sizeCnt
        have := hb.load
        omega
    · show (if flag = true then m.size + 1 else m.size) ≤ m.size + 1
      have h9 : (if flag = true then m.size + 1 else m.size) =
          m.size + (if flag = true then (1 : Nat) else 0) := by
        cases flag <;> rfl
      have h10 : (if flag = true then (1 : Nat) else 0) ≤ 1 := by
        cases flag <;> decide
      omega
    · intro _
      exact hlen2
    · intro hc
      rw [hc] at hnr
      exact absurd rfl hnr

theorem countOccupied_set_occ {es : List (Entry K V)} {i : Nat}
    (hi : i < es.length) (hocc : (slotAt es i).occupied = true)
    {e : Entry K V} (he : e.occupied = true) :
    countOccupied (es.set i e) = countOccupied es := by
  have h := countOccupied_set hi e
  rw [if_pos hocc, if_pos he] at h
  omega

theorem countOccupied_set_clear {es : List (Entry K V)} {i : Nat}
    (hi : i < es.length) (hocc : (slotAt es i).occupied = true)
    {e : Entry K V} (he : e.occupied = false) :
    countOccupied (es.set i e) + 1 = countOccupied es := by
  have h := countOccupied_set hi e
  have hn : ¬(e.occupied = true) := by
    rw [he]
    simp
  rw [if_pos hocc, if_neg hn] at h
  omega

theorem shiftLoop_basic : ∀ (fuel : Nat) (es : List (Entry K V))
    (q nxt mask : Nat) (es2 : List (Entry K V)),
    (slotAt es q).occupied = true →
    shiftLoop fuel es q nxt mask = some es2 →
    es2.length = es.length ∧ countOccupied es2 + 1 = countOccupied es := by
  intro fuel
  induction fuel with
  | zero => intro es q nxt mask es2 _ h; cases h
  | succ n ih =>
    intro es q nxt mask es2 hocc h
    have hq : q < es.length := occupied_lt_length hocc
    simp only [shiftLoop] at h
    by_cases h1 : (slotAt es nxt).occupied = false ∨ (slotAt es nxt).distance = 0
    · rw [if_pos h1] at h
      have h2 := Option.some.inj h
      have h5 := countOccupied_set_clear hq hocc
        (e := (⟨(slotAt es q).key, (slotAt es q).value, (slotAt es q).distance,
          false⟩ : Entry K V)) rfl
      refine ⟨?_, ?_⟩
      · rw [← h2, List.length_set]
      · rw [← h2]
        exact h5
    · rw [if_neg h1] at h
      push_neg at h1
      have hnocc : (slotAt es nxt).occupied = true := by
        cases h2 : (slotAt es nxt).occupied
        · exact absurd h2 h1.1
        · rfl
      have h5 := countOccupied_set_occ hq hocc
        (e := (⟨(slotAt es nxt).key, (slotAt es nxt).value,
          (slotAt es nxt).distance - 1, (slotAt es nxt).occupied⟩ : Entry K V))
        hnocc
      have hocc2 : (slotAt (es.set q ⟨(slotAt es nxt).key, (slotAt es nxt).value,
          (slotAt es nxt).distance - 1, (slotAt es nxt).occupied⟩) nxt).occupied =
          true := by
        by_cases hqn : nxt = q
        · rw [hqn] at hnocc
          rw [hqn, slotAt_set_self hq]
          exact hnocc
        · rw [slotAt_set_ne (fun hc => hqn hc.symm)]
          exact hnocc
      obtain ⟨ha, hb⟩ := ih _ nxt _ mask es2 hocc2 h
      rw [List.length_set] at ha
      rw [h5] at hb
      exact ⟨ha, hb⟩

theorem removeLoop_basic : ∀ (fuel : Nat) (es : List (Entry K V)) (k : K)
    (d i mask : Nat) (fnd : Bool) (es2 : List (Entry K V)),
    removeLoop fuel es k d i mask = some (fnd, es2) →
    (fnd = false ∧ es2 = es) ∨
      (fnd = true ∧ es2.length = es.length ∧
        countOccupied es2 + 1 = countOccupied es) := by
  intro fuel
  induction fuel with
  | zero => intro es k d i mask fnd es2 h; cases h
  | succ n ih =>
    intro es k d i mask fnd es2 h
    simp only [removeLoop] at h
    by_cases h1 : (slotAt es i).occupied = false ∨ (slotAt es i).distance < d
    · rw [if_pos h1] at h
      have h2 := Option.some.inj h
      exact Or.inl ⟨(congrArg Prod.fst h2).symm, (congrArg Prod.snd h2).symm⟩
    · rw [if_neg h1] at h
      push_neg at h1
      have hocc : (slotAt es i).occupied = true := by
        cases h2 : (slotAt es i).occupied
        · exact absurd h2 h1.1
        · rfl
      by_cases h2 : (slotAt es i).key = k
      · rw [if_pos h2] at h
        cases hsl : shiftLoop es.length es i ((i + 1) &&& mask) mask with
        | none =>
          rw [hsl] at h
          cases h
        | some es3 =>
          rw [hsl] at h
          have h3 : some (true, es3) = some (fnd, es2) := h
          have h4 := Option.some.inj h3
          obtain ⟨hlen3, hcnt3⟩ :=
            shiftLoop_basic es.length es i ((i + 1) &&& mask) mask es3 hocc hsl
          right
          have h5 : es3 = es2 := congrArg Prod.snd h4
          have h6 : true = fnd := congrArg Prod.fst h4
          refine ⟨h6.symm, ?_, ?_⟩
          · rw [← h5]
            exact hlen3
          · rw [← h5]
            exact hcnt3
      · rw [if_neg h2] at h
        exact ih _ _ _ _ _ _ _ h

theorem remove_basic {hash : K → Nat} {m : RobinHoodMap K V} (hb : Basic m)
    {k : K} {fnd : Bool} {m2 : RobinHoodMap K V}
    (h : remove hash m k = some (fnd, m2)) :
    Basic m2 ∧ m2.entries.length = m.entries.length := by
  unfold remove at h
  cases hrl : removeLoop m.entries.length m.entries k 0 (hash k &&& m.mask)
      m.mask with
  | none =>
    rw [hrl] at h
    cases h
  | some r =>
    rw [hrl] at h
    have h2 := Option.some.inj h
    have hfnd : r.1 = fnd := congrArg Prod.fst h2
    have hm2 : (⟨r.2, if r.1 = true then m.size - 1 else m.size, m.mask⟩ :
        RobinHoodMap K V) = m2 := congrArg Prod.snd h2
    rcases removeLoop_basic m.entries.length m.entries k 0 (hash k &&& m.mask)
        m.mask r.1 r.2 (by rw [hrl]) with ⟨hb1, hes⟩ | ⟨hb1, hlen3, hcnt3⟩
    · have hm2b : m2 = m := by
        rw [← hm2, hb1, hes]
        rfl
      rw [hm2b]
      exact ⟨hb, rfl⟩
    · rw [← hm2, hb1]
      have hsc := hb.sizeCnt
      have hld := hb.load
      constructor
      · constructor
        · obtain ⟨t, ht, hLe⟩ := hb.pow
          exact ⟨t, ht, by show r.2.length = 2 ^ t; rw [hlen3]; exact hLe⟩
        · show m.mask = r.2.length - 1
          rw [hlen3]
          exact hb.maskEq
        · show (if true = true then m.size - 1 else m.size) = countOccupied r.2
          rw [if_pos rfl]
          omega
        · show 4 * (if true = true then m.size - 1 else m.size) ≤ 3 * r.2.length
          rw [if_pos rfl, hlen3]
          omega
      · show r.2.length = m.entries.length
        exact hlen3

theorem count_lt_len_basic {m : RobinHoodMap K V} (hb : Basic m) :
    countOccupied m.entries < m.entries.length := by
  have h1 := hb.sizeCnt
  have h2 := hb.load
  have h3 := basic_lenPos hb
  omega

theorem basic_maskMod {m : RobinHoodMap K V} (h : Basic m) (x : Nat) :
    x &&& m.mask = x % m.entries.length :=
  land_mask h.pow h.maskEq x

theorem removeLoop_absentW {es : List (Entry K V)} {mask b : Nat}
    (hL : 0 < es.length)
    (hmask : ∀ y : Nat, y &&& mask = y % es.length) {k : K}
    (habs : ∀ i, i < es.length → (slotAt es i).occupied = true →
      (slotAt es i).key ≠ k) :
    ∀ fuel d s, (∃ t, s ≤ t ∧ t - s < fuel ∧
        (slotAt es ((b + t) % es.length)).occupied = false) →
      removeLoop fuel es k d ((b + s) % es.length) mask = some (false, es) := by
  intro fuel
  induction fuel with
  | zero =>
    rintro d s ⟨t, hst, ht, _⟩
    omega
  | succ fuel ih =>
    rintro d s ⟨t, hst, ht, hfree⟩
    simp only [removeLoop]
    by_cases hstop : (slotAt es ((b + s) % es.length)).occupied = false ∨
        (slotAt es ((b + s) % es.length)).distance < d
    · rw [if_pos hstop]
    · rw [if_neg hstop]
      push_neg at hstop
      have hocc : (slotAt es ((b + s) % es.length)).occupied = true := by
        cases h2 : (slotAt es ((b + s) % es.length)).occupied
        · exact absurd h2 hstop.1
        · rfl
      rw [if_neg (habs _ (Nat.mod_lt _ hL) hocc), hmask, mod_step]
      apply ih ((d + 1) % 256) (s + 1)
      have hts : t ≠ s := by
        intro hcontra
        rw [hcontra] at hfree
        rw [hfree] at hocc
        cases hocc
      exact ⟨t, by omega, by omega, hfree⟩

/-- Removing an absent key leaves the table byte-for-byte unchanged, at every
reachable table size: the search loop never matches, and within one lap it
reaches an unoccupied slot (the load never exceeds 3/4) or exits early; either
way it reports false without writing. -/
theorem remove_absent_basic {hash : K → Nat} {m : RobinHoodMap K V}
    (hb : Basic m) {k : K} (ha : absentKey m k) :
    remove hash m k = some (false, m) := by
  have hL : 0 < m.entries.length := basic_lenPos hb
  obtain ⟨u, hu, hfreeu⟩ :=
    exists_free_offset (homeOf_lt hL k) (exists_unoccupied (count_lt_len_basic hb))
  unfold remove
  rw [(basic_maskMod hb), home_as_start hL k,
    removeLoop_absentW hL (basic_maskMod hb) ha m.entries.length 0 0
      ⟨u, by omega, by omega, hfreeu⟩]
  rfl

theorem basic_fresh :
    Basic (⟨List.replicate 8 default, 0, 7⟩ : RobinHoodMap K V) := by
  refine ⟨⟨3, by omega, by simp⟩, by simp, ?_, by simp⟩
  show (0 : Nat) = countOccupied (List.replicate 8 (default : Entry K V))
  rw [countOccupied_replicate]

/-- Every reachable state of the primary model satisfies the distance-free
invariant, with no bound on the table size. -/
theorem reachable_basic {hash : K → Nat} {m : RobinHoodMap K V}
    (h : Reachable hash m) : Basic m := by
  induction h with
  | new => exact basic_fresh
  | @putStep m0 m1 key value hr heq ih =>
    obtain ⟨m2, heq2, hb2, _, _, _⟩ := put_basic ih key value
    rw [heq] at heq2
    rw [Option.some.inj heq2]
    exact hb2
  | @removeStep m0 m1 key fnd hr heq ih => exact (remove_basic ih heq).1
  | @clearStep m0 hr ih => exact basic_fresh

/-- A successful put chain preserves reachability. -/
theorem reachable_puts {hash : K → Nat} :
    ∀ (l : List (K × V)) (m m2 : RobinHoodMap K V),
      Reachable hash m → puts hash m l = some m2 → Reachable hash m2 := by
  intro l
  induction l with
  | nil =>
    intro m m2 hr heq
    have h2 : m = m2 := Option.some.inj heq
    rw [← h2]
    exact hr
  | cons p rest ih =>
    intro m m2 hr heq
    rw [puts, List.foldlM_cons] at heq
    cases hput : put hash m p.1 p.2 with
    | none =>
      rw [hput] at heq
      cases heq
    | some m1 =>
      rw [hput] at heq
      exact ih m1 m2 (Reachable.putStep hr hput) heq

/-- The total put-chain wrapper applied to a fresh table, when the chain
succeeds, lands on a reachable state. -/
theorem reachable_putsD {hash : K → Nat} (l : List (K × V))
    (h : (puts hash (NewRobinHoodMap : RobinHoodMap K V) l).isSome = true) :
    Reachable hash (putsD hash NewRobinHoodMap l) := by
  unfold putsD
  cases heq : puts hash (NewRobinHoodMap : RobinHoodMap K V) l with
  | none =>
    rw [heq] at h
    cases h
  | some m2 =>
    exact reachable_puts l _ m2 Reachable.new heq

/-- Every reachable state with at most 128 slots is well formed in the exact
sense: on the way to such a state the table never had more slots (lengths only
double at a resize or reset to 8 at a clear), so the whole history ran in the
regime where the uint8 distances are exact. -/
theorem reachable_wf {hash : K → Nat} {m : RobinHoodMap K V}
    (h : Reachable hash m) : m.entries.length ≤ 128 → WF hash m := by
  induction h with
  | new => intro _; exact wf_new
  | @putStep m0 m1 key value hr heq ih =>
    intro hsmall
    have hb0 := reachable_basic hr
    obtain ⟨m2, heq2, hb2, _, hlen_nr, hlen_r⟩ := put_basic hb0 key value
    rw [heq] at heq2
    have hm12 : m1 = m2 := Option.some.inj heq2
    by_cases hnr : needsResize m0 = true
    · have hlr := hlen_r hnr
      have hsm0 : m0.entries.length ≤ 64 := by
        rw [hm12] at hsmall
        omega
      have hwf0 := ih (by omega)
      have heqN := put_eq hwf0 (by omega) (fun _ => hsm0) key value
      rw [heqN] at heq
      obtain ⟨m3, heq3, hwf3, _⟩ := put_total hwf0 key value
      rw [heq] at heq3
      rw [Option.some.inj heq3]
      exact hwf3
    · have hnr2 : needsResize m0 = false := by
        revert hnr
        cases needsResize m0 <;> simp
      have hlnr := hlen_nr hnr2
      have hsm0 : m0.entries.length ≤ 128 := by
        rw [hm12] at hsmall
        omega
      have hwf0 := ih hsm0
      have heqN := put_eq hwf0 hsm0 (fun hc => absurd hc hnr) key value
      rw [heqN] at heq
      obtain ⟨m3, heq3, hwf3, _⟩ := put_total hwf0 key value
      rw [heq] at heq3
      rw [Option.some.inj heq3]
      exact hwf3
  | @removeStep m0 m1 key fnd hr heq ih =>
    intro hsmall
    have hb0 := reachable_basic hr
    obtain ⟨_, hlen⟩ := remove_basic hb0 heq
    have hsm0 : m0.entries.length ≤ 128 := by
      rw [← hlen]
      exact hsmall
    have hwf0 := ih hsm0
    rw [remove_eq hwf0 hsm0 key] at heq
    rcases present_or_absent m0 key with ⟨i, hp⟩ | ha
    · obtain ⟨m2, heq2, hwf2, _⟩ := remove_found hwf0 hp
      rw [heq] at heq2
      have h4 : m1 = m2 := congrArg Prod.snd (Option.some.inj heq2)
      rw [h4]
      exact hwf2
    · have heq2 := remove_absent hwf0 ha
      rw [heq] at heq2
      have h4 : m1 = m0 := congrArg Prod.snd (Option.some.inj heq2)
      rw [h4]
      exact hwf0
  | @clearStep m0 hr ih => intro _; exact wf_clear m0

/-- C2 (amended): on a reachable state of at most 128 slots whose load-factor
check does not fire, Put of a key already present overwrites that slot value
in place, leaving every other slot, the size and the mask unchanged.  As
stated the claim is false, because Put runs the load-factor check before the
key-match check, so an update in a sufficiently full table first resizes,
relocating other entries and changing the mask (see the counterexample); the
slot bound keeps the uint8 distance arithmetic exact. -/
theorem C2_update_in_place {hash : K → Nat} {m : RobinHoodMap K V}
    (hr : Reachable hash m) (hsmall : m.entries.length ≤ 128)
    (hnr : 4 * (m.size + 1) ≤ 3 * m.entries.length)
    {i : Nat} {k : K} (hp : presentAt m i k) (v : V) :
    put hash m k v = some ⟨m.entries.set i ⟨(slotAt m.entries i).key, v,
      (slotAt m.entries i).distance, (slotAt m.entries i).occupied⟩,
      m.size, m.mask⟩ := by
  have hwf := reachable_wf hr hsmall
  have hnr2 : needsResize m = false := by
    unfold needsResize
    simp only [decide_eq_false_iff_not]
    omega
  unfold put
  rw [if_neg (by rw [hnr2]; intro h2; cases h2)]
  rw [Option.some_bind, putCore_eq hwf hsmall k v]
  exact putCore_present hwf hp v

/-- C2 counterexample: in the reachable six-entry fixture, key 0 is present,
yet Put 0 999 resizes first: the occupant of slot 2 changes away from key 9
and the mask changes, so the update is not in place and other entries are
displaced. -/
theorem C2_counterexample :
    Reachable wHash wM6 ∧ presentAt wM6 0 0 ∧
      (slotAt wM6.entries 2).key = 9 ∧
      (slotAt wM6.entries 2).occupied = true ∧
      (slotAt (putD wHash wM6 0 999).entries 2).key ≠ 9 ∧
      (putD wHash wM6 0 999).mask ≠ wM6.mask :=
  ⟨reachable_putsD [(0, 100), (1, 101), (2, 102), (3, 103), (4, 104), (9, 109)]
      (by decide),
    by decide, by decide, by decide, by decide, by decide⟩

/-- C2 witness: the amended in-place update at a concrete reachable state. -/
theorem C2_update_in_place_witness :
    Reachable wHash wM2 ∧ wM2.entries.length ≤ 128 ∧
      4 * (wM2.size + 1) ≤ 3 * wM2.entries.length ∧
      presentAt wM2 1 1 ∧
      put wHash wM2 1 99 = some ⟨wM2.entries.set 1 ⟨(slotAt wM2.entries 1).key,
        99, (slotAt wM2.entries 1).distance, (slotAt wM2.entries 1).occupied⟩,
        wM2.size, wM2.mask⟩ :=
  ⟨reachable_putsD [(1, 10), (2, 20)] (by decide), by decide, by decide,
    by decide,
    C2_update_in_place (reachable_putsD [(1, 10), (2, 20)] (by decide))
      (by decide) (by decide) (by decide) 99⟩

/-- C3 (amended): removing a stored key from a reachable state of at most 128
slots returns true; afterwards Get of that key is not-found, size has dropped
by exactly one, and every other stored key is still found with its unchanged
value.  The slot bound keeps the uint8 distances exact; beyond it the claim
is false: a backward shift can stop at an entry whose wrapped distance is 0
though its true displacement is 256, stranding a stored key that Get can no
longer find (see the counterexample). -/
theorem C3_remove_present {hash : K → Nat} {m : RobinHoodMap K V}
    (hr : Reachable hash m) (hsmall : m.entries.length ≤ 128)
    {i : Nat} {k : K} (hp : presentAt m i k) :
    ∃ m2, remove hash m k = some (true, m2) ∧
      get hash m2 k = some none ∧
      m2.size + 1 = m.size ∧
      ∀ j, j < m.entries.length → (slotAt m.entries j).occupied = true →
        (slotAt m.entries j).key ≠ k →
        get hash m2 (slotAt m.entries j).key =
          some (some (slotAt m.entries j).value) := by
  have hwf := reachable_wf hr hsmall
  obtain ⟨m2, heq, hwf2, hperm, hsize, hlen, hmask, habs2⟩ := remove_found hwf hp
  have hsm2 : m2.entries.length ≤ 128 := by
    rw [hlen]
    exact hsmall
  refine ⟨m2, ?_, ?_, hsize, ?_⟩
  · rw [remove_eq hwf hsmall k]
    exact heq
  · rw [get_eq hwf2 hsm2 k]
    exact get_absent hwf2 habs2
  · intro j hj hocc hkeyj
    rw [get_eq hwf2 hsm2 _]
    have hmem : ((slotAt m.entries j).key, (slotAt m.entries j).value) ∈
        pairsOf m.entries := mem_pairsOf.2 ⟨j, hj, hocc, rfl, rfl⟩
    have hmem2 := hperm.mem_iff.2 hmem
    rcases List.mem_cons.1 hmem2 with hhd | htl
    · exact absurd (congrArg Prod.fst hhd) hkeyj
    · obtain ⟨j2, hj2, hocc2, hkey2, hval2⟩ := mem_pairsOf.1 htl
      rw [get_found hwf2 ⟨hj2, hocc2, hkey2⟩, hval2]

/-- C3 witness: removing key 1 from the concrete fixture. -/
theorem C3_remove_present_witness :
    Reachable wHash wM2 ∧ wM2.entries.length ≤ 128 ∧ presentAt wM2 1 1 ∧
      (removeD wHash wM2 1).1 = true ∧
      get wHash (removeD wHash wM2 1).2 1 = some none ∧
      (removeD wHash wM2 1).2.size + 1 = wM2.size ∧
      get wHash (removeD wHash wM2 1).2 2 = some (some 20) := by
  have hr : Reachable wHash wM2 :=
    reachable_putsD [(1, 10), (2, 20)] (by decide)
  obtain ⟨m2, heq, hget, hsize, hothers⟩ :=
    C3_remove_present hr (by decide) (show presentAt wM2 1 1 by decide)
  have hD : removeD wHash wM2 1 = (true, m2) := by
    unfold removeD
    rw [heq]
    rfl
  have h2 := hothers 2 (by decide) (by decide) (by decide)
  have hkey2 : (slotAt wM2.entries 2).key = 2 := by decide
  have hval2 : (slotAt wM2.entries 2).value = 20 := by decide
  rw [hkey2, hval2] at h2
  exact ⟨hr, by decide, by decide, by rw [hD], by rw [hD]; exact hget,
    by rw [hD]; exact hsize, by rw [hD]; exact h2⟩

/-- C4: removing an absent key from a reachable state returns false and leaves
the whole state (slots, size and mask) unchanged; this holds at every table
size, because the search phase writes nothing and always stops within one lap
(the load factor keeps an unoccupied slot in reach) whatever the wrapped
distance comparisons decide. -/
theorem C4_remove_absent {hash : K → Nat} {m : RobinHoodMap K V}
    (hr : Reachable hash m) {k : K} (ha : absentKey m k) :
    remove hash m k = some (false, m) :=
  remove_absent_basic (reachable_basic hr) ha

/-- C4 witness: removing the absent key 5 from the concrete fixture. -/
theorem C4_remove_absent_witness :
    Reachable wHash wM2 ∧ absentKey wM2 5 ∧
      remove wHash wM2 5 = some (false, wM2) :=
  ⟨reachable_putsD [(1, 10), (2, 20)] (by decide), by decide,
    C4_remove_absent (reachable_putsD [(1, 10), (2, 20)] (by decide))
      (by decide)⟩

/-- C5: after Clear on any table, size is 0, there are exactly 8 slots, all
unoccupied, the mask is 7, and Get of any key is not-found. -/
theorem C5_clear_resets (hash : K → Nat) (m : RobinHoodMap K V) (k : K) :
    Size (clear m) = 0 ∧ (clear m).entries.length = 8 ∧ (clear m).mask = 7 ∧
      (∀ i, i < (clear m).entries.length →
        (slotAt (clear m).entries i).occupied = false) ∧
      get hash (clear m) k = some none := by
  have hocc : ∀ i, i < (clear m).entries.length →
      (slotAt (clear m).entries i).occupied = false := by
    intro i _
    show (slotAt (List.replicate 8 (default : Entry K V)) i).occupied = false
    rw [slotAt_replicate]
    rfl
  refine ⟨rfl, by simp [clear], rfl, hocc, ?_⟩
  have hwfc : WF hash (clear m) := wf_clear m
  have hsmc : (clear m).entries.length ≤ 128 := by
    show (List.replicate 8 (default : Entry K V)).length ≤ 128
    rw [List.length_replicate]
    omega
  rw [get_eq hwfc hsmc k]
  apply get_absent hwfc
  intro i hi h2
  rw [hocc i hi] at h2
  cases h2

/-- C5 witness: clearing the concrete fixture. -/
theorem C5_clear_resets_witness :
    Size (clear wM2) = 0 ∧ (slotAt (clear wM2).entries 0).occupied = false ∧
      get wHash (clear wM2) 1 = some none :=
  ⟨(C5_clear_resets wHash wM2 1).1,
    (C5_clear_resets wHash wM2 1).2.2.2.1 0 (by decide),
    (C5_clear_resets wHash wM2 1).2.2.2.2⟩

/-- C6 (amended): in every reachable state of at most 128 slots, each occupied
slot i holding key k with home bucket b = hash k &&& mask stores probe
distance (i - b) mod len, written additively as (i + len - b) % len.  The
slot bound is essential: the source stores the distance in a uint8, so at
tables of 512 or more slots an entry displaced 256 slots or more stores its
displacement mod 256 and the claimed equality fails (see the
counterexample). -/
theorem C6_distance_invariant {hash : K → Nat} {m : RobinHoodMap K V}
    (hr : Reachable hash m) (hsmall : m.entries.length ≤ 128) :
    ∀ i, i < m.entries.length → (slotAt m.entries i).occupied = true →
      (slotAt m.entries i).distance =
        (i + m.entries.length - (hash (slotAt m.entries i).key &&& m.mask)) %
          m.entries.length := by
  have hwf := reachable_wf hr hsmall
  intro i hi hocc
  rw [hwf.maskMod (hash (slotAt m.entries i).key)]
  exact hwf.dist i hi hocc

/-- C6 witness: the distance equation at slot 1 of the concrete fixture. -/
theorem C6_distance_invariant_witness :
    Reachable wHash wM2 ∧ wM2.entries.length ≤ 128 ∧
      (slotAt wM2.entries 1).occupied = true ∧
      (slotAt wM2.entries 1).distance =
        (1 + wM2.entries.length -
          (wHash (slotAt wM2.entries 1).key &&& wM2.mask)) %
          wM2.entries.length :=
  ⟨reachable_putsD [(1, 10), (2, 20)] (by decide), by decide, by decide,
    C6_distance_invariant (reachable_putsD [(1, 10), (2, 20)] (by decide))
      (by decide) 1 (by decide) (by decide)⟩

/-- C7: in every reachable state, at every table size, the size field equals
the number of slots whose occupied flag is true: the field moves exactly when
a slot flips between unoccupied and occupied, an accounting that does not
involve the probe distances at all. -/
theorem C7_size_counts_occupied {hash : K → Nat} {m : RobinHoodMap K V}
    (hr : Reachable hash m) : Size m = countOccupied m.entries :=
  (reachable_basic hr).sizeCnt

/-- C7 witness: the size count at the concrete fixture. -/
theorem C7_size_counts_occupied_witness :
    Reachable wHash wM2 ∧ Size wM2 = countOccupied wM2.entries :=
  ⟨reachable_putsD [(1, 10), (2, 20)] (by decide),
    C7_size_counts_occupied (reachable_putsD [(1, 10), (2, 20)] (by decide))⟩

/-- C8: Put is total on every reachable state, at every table size: the index
advances once per iteration whatever the wrapped distance comparisons decide,
so within one lap the probe reaches an unoccupied slot (the proactive resize
keeps the load at most 3/4, so one exists) or stops earlier at a matching
key; Put never fails. -/
theorem C8_put_total {hash : K → Nat} {m : RobinHoodMap K V}
    (hr : Reachable hash m) (k : K) (v : V) :
    (put hash m k v).isSome = true := by
  obtain ⟨m2, heq, _⟩ := put_basic (reachable_basic hr) k v
  rw [heq]
  rfl

/-- C8 witness: putting a fresh key at the concrete fixture. -/
theorem C8_put_total_witness :
    Reachable wHash wM2 ∧ (put wHash wM2 7 70).isSome = true :=
  ⟨reachable_putsD [(1, 10), (2, 20)] (by decide),
    C8_put_total (reachable_putsD [(1, 10), (2, 20)] (by decide)) 7 70⟩

/-- C9 (amended): in every reachable state of at most 128 slots no two
distinct occupied slots hold equal keys: a key occupies at most one slot.
The slot bound keeps the uint8 distances exact; beyond it the claim is false:
after a backward shift strands an entry behind a freed hole, re-putting its
key fills the hole and creates a second slot with the same key (see the
counterexample). -/
theorem C9_keys_unique {hash : K → Nat} {m : RobinHoodMap K V}
    (hr : Reachable hash m) (hsmall : m.entries.length ≤ 128) :
    ∀ i j, i < m.entries.length → j < m.entries.length →
      (slotAt m.entries i).occupied = true →
      (slotAt m.entries j).occupied = true →
      (slotAt m.entries i).key = (slotAt m.entries j).key → i = j :=
  (reachable_wf hr hsmall).uniq

/-- C9 witness: the uniqueness implication at slot 1 of the concrete
fixture. -/
theorem C9_keys_unique_witness :
    Reachable wHash wM2 ∧
      (wM2.entries.length ≤ 128 ∧ (1 : Nat) < wM2.entries.length ∧
        (slotAt wM2.entries 1).occupied = true) ∧
      (1 : Nat) = 1 := by
  have hr : Reachable wHash wM2 := reachable_putsD [(1, 10), (2, 20)] (by decide)
  have h := C9_keys_unique hr (by decide) 1 1 (by decide) (by decide)
    (by decide) (by decide) rfl
  exact ⟨hr, ⟨by decide, by decide, by decide⟩, h⟩

/-- C10: Get and Size do not modify the table: in state-passing form both
return their receiver unchanged, for every state and key. -/
theorem C10_get_size_pure (hash : K → Nat) (m : RobinHoodMap K V) (k : K) :
    (getS hash m k).2 = m ∧ (SizeS m).2 = m :=
  ⟨rfl, rfl⟩

/-! The const-hash chain fixture, symbolically: n puts of keys 0..n-1 through
the primary (uint8) model land exactly on chainState n (Lcap n).  This makes
the 300-key, 512-slot state reachable without running 300 inserts inside a
kernel evaluation. -/

theorem chainEntries_length {n L : Nat} : (chainEntries n L).length = L := by
  unfold chainEntries
  rw [List.length_map, List.length_range]

theorem slotAt_chain {n L i : Nat} (hi : i < L) :
    slotAt (chainEntries n L) i =
      if i < n then ⟨i, i, i % 256, true⟩ else default := by
  unfold slotAt chainEntries
  rw [List.getD_eq_getElem?_getD, List.getElem?_map, List.getElem?_range hi]
  rfl

theorem getElem_chain {n L i : Nat} (hi : i < (chainEntries n L).length) :
    (chainEntries n L)[i] = if i < n then ⟨i, i, i % 256, true⟩ else default := by
  have h2 : slotAt (chainEntries n L) i = (chainEntries n L)[i] := by
    unfold slotAt
    rw [List.getD_eq_getElem?_getD, List.getElem?_eq_getElem hi]
    rfl
  rw [← h2]
  apply slotAt_chain
  rw [chainEntries_length] at hi
  exact hi

theorem chain_zero (L : Nat) :
    chainEntries 0 L = List.replicate L (default : Entry Nat Nat) := by
  apply List.ext_getElem
  · rw [chainEntries_length, List.length_replicate]
  · intro i h1 h2
    rw [getElem_chain h1, if_neg (by omega), List.getElem_replicate]

theorem chain_set {n L : Nat} (hn : n < L) :
    (chainEntries n L).set n ⟨n, n, n % 256, true⟩ = chainEntries (n + 1) L := by
  apply List.ext_getElem
  · rw [List.length_set, chainEntries_length, chainEntries_length]
  · intro i h1 h2
    have hiL : i < (chainEntries n L).length := by
      rw [List.length_set] at h1
      exact h1
    rw [List.getElem_set, getElem_chain hiL, getElem_chain h2]
    by_cases hin : n = i
    · subst hin
      rw [if_pos rfl, if_pos (by omega)]
    · rw [if_neg hin]
      by_cases hlt : i < n
      · rw [if_pos hlt, if_pos (by omega)]
      · rw [if_neg hlt, if_neg (by omega)]

theorem putLoop_chain {L : Nat} (hpow : ∃ t, 3 ≤ t ∧ L = 2 ^ t) {n : Nat}
    (hn : n < L) (v : Nat) :
    ∀ (fuel j : Nat), j ≤ n → n - j < fuel →
      putLoop fuel (chainEntries n L) n v (j % 256) j (L - 1) =
        some ((chainEntries n L).set n ⟨n, v, n % 256, true⟩, true) := by
  intro fuel
  induction fuel with
  | zero =>
    intro j _ h
    omega
  | succ f ih =>
    intro j hj hfuel
    simp only [putLoop]
    rw [slotAt_chain (show j < L from by omega)]
    by_cases hjn : j < n
    · rw [if_pos hjn]
      rw [if_neg (show ¬((⟨j, j, j % 256, true⟩ : Entry Nat Nat).occupied =
        false) from by simp)]
      rw [if_neg (show ¬((⟨j, j, j % 256, true⟩ : Entry Nat Nat).key = n) from
        by simp; omega)]
      rw [if_neg (show ¬((⟨j, j, j % 256, true⟩ : Entry Nat Nat).distance <
        j % 256) from by simp)]
      rw [land_mask hpow rfl (j + 1),
        Nat.mod_eq_of_lt (show j + 1 < L from by omega), mod_step 256 j]
      exact ih (j + 1) (by omega) (by omega)
    · have hjn2 : j = n := by omega
      subst hjn2
      rw [if_neg (show ¬(j < j) from by omega)]
      rw [if_pos (show ((default : Entry Nat Nat)).occupied = false from rfl)]

theorem putCore_chain {L2 : Nat} (hpow2 : ∃ t, 3 ≤ t ∧ L2 = 2 ^ t) {n : Nat}
    (hn : n < L2) :
    putCore cHash (chainState n L2) n n = some (chainState (n + 1) L2) := by
  unfold putCore chainState
  rw [show (chainEntries n L2).length = L2 from chainEntries_length]
  rw [show cHash n &&& (L2 - 1) = 0 from Nat.zero_and (L2 - 1)]
  have hm : putLoop L2 (chainEntries n L2) n n 0 0 (L2 - 1) =
      some ((chainEntries n L2).set n ⟨n, n, n % 256, true⟩, true) :=
    putLoop_chain hpow2 hn n L2 0 (Nat.zero_le n) (by omega)
  rw [hm, chain_set hn]
  rfl

theorem reinsert_unocc {hash : K → Nat} :
    ∀ (rest : List (Entry K V)) (acc : RobinHoodMap K V),
      (∀ e ∈ rest, e.occupied = false) → reinsert hash rest acc = some acc := by
  intro rest
  induction rest with
  | nil => intro acc _; rfl
  | cons e rest ih =>
    intro acc hall
    simp only [reinsert]
    rw [if_neg (by rw [hall e (List.mem_cons_self e rest)]; simp)]
    rw [Option.some_bind]
    exact ih acc (fun x hx => hall x (List.mem_cons_of_mem e hx))

theorem reinsert_chain (L L2 s : Nat) (hpow2 : ∃ t, 3 ≤ t ∧ L2 = 2 ^ t)
    (hsL : s ≤ L) (hs2 : s < L2) (hguard : 4 * s ≤ 3 * L2) :
    ∀ (j : Nat), j ≤ s →
      reinsert cHash (List.drop j (chainEntries s L)) (chainState j L2) =
        some (chainState s L2) := by
  suffices h : ∀ (k j : Nat), j ≤ s → s - j = k →
      reinsert cHash (List.drop j (chainEntries s L)) (chainState j L2) =
        some (chainState s L2) by
    intro j hj
    exact h (s - j) j hj rfl
  intro k
  induction k with
  | zero =>
    intro j hj hk
    have hjs : j = s := by omega
    subst hjs
    apply reinsert_unocc
    intro e he
    obtain ⟨i, hi, hei⟩ := List.mem_iff_getElem.1 he
    rw [List.getElem_drop] at hei
    have hiL : j + i < (chainEntries j L).length := by
      have hl : (List.drop j (chainEntries j L)).length =
          (chainEntries j L).length - j := List.length_drop j _
      omega
    rw [getElem_chain hiL, if_neg (by omega)] at hei
    rw [← hei]
    rfl
  | succ k ih =>
    intro j hj hk
    have hjlt : j < s := by omega
    have hdrop : List.drop j (chainEntries s L) =
        (⟨j, j, j % 256, true⟩ : Entry Nat Nat) ::
          List.drop (j + 1) (chainEntries s L) := by
      rw [List.drop_eq_getElem_cons (show j < (chainEntries s L).length from
        by rw [chainEntries_length]; omega)]
      rw [getElem_chain (show j < (chainEntries s L).length from
        by rw [chainEntries_length]; omega)]
      rw [if_pos hjlt]
    rw [hdrop]
    have hnr : needsResize (chainState j L2) = false := by
      unfold needsResize chainState
      simp only [decide_eq_false_iff_not]
      rw [show (chainEntries j L2).length = L2 from chainEntries_length]
      omega
    show (if needsResize (chainState j L2) = true then none
        else putCore cHash (chainState j L2) j j).bind
        (fun acc1 => reinsert cHash (List.drop (j + 1) (chainEntries s L)) acc1) =
      some (chainState s L2)
    rw [hnr, if_neg (show ¬(false = true) from by simp)]
    rw [show putCore cHash (chainState j L2) j j =
      some (chainState (j + 1) L2) from putCore_chain hpow2 (by omega)]
    exact ih (j + 1) (by omega) (by omega)

theorem Lcap_pow (n : Nat) : ∃ t, 3 ≤ t ∧ Lcap n = 2 ^ t := by
  induction n with
  | zero => exact ⟨3, by omega, rfl⟩
  | succ n ih =>
    obtain ⟨t, ht, hL⟩ := ih
    simp only [Lcap]
    by_cases hc : 3 * Lcap n < 4 * (n + 1)
    · rw [if_pos hc]
      exact ⟨t + 1, by omega, by rw [hL]; ring⟩
    · rw [if_neg hc]
      exact ⟨t, ht, hL⟩

theorem Lcap_le8 (n : Nat) : 8 ≤ Lcap n := by
  obtain ⟨t, ht, hL⟩ := Lcap_pow n
  rw [hL]
  calc (8 : Nat) = 2 ^ 3 := by norm_num
  _ ≤ 2 ^ t := Nat.pow_le_pow_right (by norm_num) ht

theorem Lcap_load (n : Nat) : 4 * n ≤ 3 * Lcap n := by
  induction n with
  | zero => omega
  | succ n ih =>
    have h8 := Lcap_le8 n
    simp only [Lcap]
    by_cases hc : 3 * Lcap n < 4 * (n + 1)
    · rw [if_pos hc]
      omega
    · rw [if_neg hc]
      omega

theorem put_chain (n : Nat) :
    put cHash (chainState n (Lcap n)) n n =
      some (chainState (n + 1) (Lcap (n + 1))) := by
  have hpow := Lcap_pow n
  have hload := Lcap_load n
  have h8 := Lcap_le8 n
  have hnL : n < Lcap n := by omega
  unfold put
  by_cases hc : 3 * Lcap n < 4 * (n + 1)
  · have hnr : needsResize (chainState n (Lcap n)) = true := by
      unfold needsResize chainState
      rw [show (chainEntries n (Lcap n)).length = Lcap n from chainEntries_length]
      exact decide_eq_true hc
    rw [if_pos hnr]
    unfold resize
    rw [show (chainState n (Lcap n)).entries = chainEntries n (Lcap n) from rfl]
    rw [show (chainEntries n (Lcap n)).length = Lcap n from chainEntries_length]
    have hpow2 : ∃ t, 3 ≤ t ∧ Lcap n * 2 = 2 ^ t := by
      obtain ⟨t, ht, hL⟩ := hpow
      exact ⟨t + 1, by omega, by rw [hL]; ring⟩
    have hacc : (⟨List.replicate (Lcap n * 2) default, 0, Lcap n * 2 - 1⟩ :
        RobinHoodMap Nat Nat) = chainState 0 (Lcap n * 2) := by
      unfold chainState
      rw [chain_zero]
    rw [hacc]
    rw [show chainEntries n (Lcap n) = List.drop 0 (chainEntries n (Lcap n))
      from (List.drop_zero _).symm]
    rw [reinsert_chain (Lcap n) (Lcap n * 2) n hpow2 (by omega) (by omega)
      (by omega) 0 (Nat.zero_le n)]
    rw [Option.some_bind]
    rw [putCore_chain hpow2 (show n < Lcap n * 2 from by omega)]
    have hL1 : Lcap (n + 1) = 2 * Lcap n := by
      simp only [Lcap]
      rw [if_pos hc]
    rw [hL1, Nat.mul_comm 2 (Lcap n)]
  · have hnr : needsResize (chainState n (Lcap n)) = false := by
      unfold needsResize chainState
      simp only [decide_eq_false_iff_not]
      rw [show (chainEntries n (Lcap n)).length = Lcap n from chainEntries_length]
      exact hc
    rw [if_neg (by rw [hnr]; intro h2; cases h2), Option.some_bind]
    rw [putCore_chain hpow hnL]
    have hL1 : Lcap (n + 1) = Lcap n := by
      simp only [Lcap]
      rw [if_neg hc]
    rw [hL1]

theorem puts_chain (n : Nat) :
    puts cHash (NewRobinHoodMap : RobinHoodMap Nat Nat) (chainPairs n) =
      some (chainState n (Lcap n)) := by
  induction n with
  | zero =>
    show some (NewRobinHoodMap : RobinHoodMap Nat Nat) = _
    rw [show Lcap 0 = 8 from rfl]
    unfold NewRobinHoodMap chainState
    rw [chain_zero]
  | succ n ih =>
    have hpairs : chainPairs (n + 1) = chainPairs n ++ [(n, n)] := by
      unfold chainPairs
      rw [List.range_succ, List.map_append]
      rfl
    rw [show puts cHash (NewRobinHoodMap : RobinHoodMap Nat Nat)
      (chainPairs (n + 1)) = (chainPairs (n + 1)).foldlM
        (fun acc kv => put cHash acc kv.1 kv.2) NewRobinHoodMap from rfl]
    rw [hpairs, List.foldlM_append]
    have ih2 : (chainPairs n).foldlM (fun acc kv => put cHash acc kv.1 kv.2)
        (NewRobinHoodMap : RobinHoodMap Nat Nat) =
        some (chainState n (Lcap n)) := ih
    rw [ih2]
    show ([((n : Nat), (n : Nat))]).foldlM
        (fun acc kv => put cHash acc kv.1 kv.2) (chainState n (Lcap n)) =
      some (chainState (n + 1) (Lcap (n + 1)))
    rw [List.foldlM_cons]
    rw [show put cHash (chainState n (Lcap n)) (n, n).1 (n, n).2 =
      some (chainState (n + 1) (Lcap (n + 1))) from put_chain n]
    rfl

set_option maxRecDepth 100000

theorem chain300_reachable : Reachable cHash cState := by
  have h := puts_chain 300
  have hL : Lcap 300 = 512 := by decide
  rw [hL] at h
  exact reachable_puts (chainPairs 300) NewRobinHoodMap (chainState 300 512)
    Reachable.new h

/-- C3 counterexample: in the reachable 512-slot chain state, keys 0 and 256
are both stored; Remove(0) succeeds, yet Get(256) afterwards is not-found.
The backward shift stopped at slot 256, whose uint8 distance wrapped to 0
though its true displacement is 256, stranding keys 256..299 behind the
freed slot 255. -/
theorem C3_counterexample :
    Reachable cHash cState ∧
    presentAt cState 0 0 ∧
    presentAt cState 256 256 ∧
    (removeD cHash cState 0).1 = true ∧
    get cHash strandState 256 = some none :=
  ⟨chain300_reachable, by decide, by decide, by decide, by decide⟩

/-- C6 counterexample: in the reachable 512-slot chain state, slot 257 is
occupied by key 257 with home bucket 0, so the claimed distance would be
(257 + 512 - 0) % 512 = 257, but the uint8 field stores 257 % 256 = 1. -/
theorem C6_counterexample :
    Reachable cHash cState ∧
    (slotAt cState.entries 257).occupied = true ∧
    (slotAt cState.entries 257).distance ≠
      (257 + cState.entries.length -
        (cHash (slotAt cState.entries 257).key &&& cState.mask)) %
        cState.entries.length :=
  ⟨chain300_reachable, by decide, by decide⟩

/-- C9 counterexample: after Remove(0) strands key 256 at slot 256 of the
chain state, Put(256, 999) probes from bucket 0, reaches the freed slot 255
first and fills it, so the reachable result holds key 256 in two distinct
occupied slots. -/
theorem C9_counterexample :
    Reachable cHash dupState ∧
    (slotAt dupState.entries 255).occupied = true ∧
    (slotAt dupState.entries 256).occupied = true ∧
    (slotAt dupState.entries 255).key = (slotAt dupState.entries 256).key ∧
    (255 : Nat) ≠ 256 := by
  have h0 : (remove cHash cState 0).isSome = true := by decide
  have h1 : remove cHash cState 0 = some (removeD cHash cState 0) := by
    unfold removeD
    cases hc : remove cHash cState 0 with
    | none => rw [hc] at h0; cases h0
    | some p => rfl
  have hr2 : Reachable cHash strandState :=
    Reachable.removeStep chain300_reachable h1
  have h2 : (put cHash strandState 256 999).isSome = true := by decide
  have h3 : put cHash strandState 256 999 =
      some (putD cHash strandState 256 999) := by
    unfold putD
    cases hc : put cHash strandState 256 999 with
    | none => rw [hc] at h2; cases h2
    | some p => rfl
  have hr3 : Reachable cHash dupState := Reachable.putStep hr2 h3
  refine ⟨hr3, ?_⟩
  decide

end FastMap
